import Mathlib

/-!
# Cron-driven replica controller (Week07/hpa)

A shallow embedding of `api/v1/hpa_types.go` and
`internal/controller/hpa_controller.go`.

* An instant (`time.Time`) is an `Int`: nanoseconds since Go's zero time, so
  `time.Time{}` is `0`.  `After`, `Before` and `Equal` compare instants.
* A `time.Duration` is an `Int`: an `int64` count of nanoseconds; `Time.Sub`
  saturates to that range.
* `int32` replica counts are integers; the controller only copies and
  compares them.
* The controller talks to the API server through `client.Client`.  The server
  is an explicit `World`: the stored objects, a script of injected failures
  (one entry consumed per API call) and the list of calls and log lines the
  pass has produced so far.
* The cron library (`robfig/cron`) is outside the repository; its parser is a
  parameter `Parser` of every definition that uses it.
-/

namespace CronHpa

/-! ## Time -/

/-- The constant `time.Second`. -/
def Second : Int := 1000000000

/-- The largest `time.Duration`, `1<<63 - 1`. -/
def maxDuration : Int := 9223372036854775807

/-- The smallest `time.Duration`, `-1 << 63`. -/
def minDuration : Int := -9223372036854775808

/-- The method `Time.Sub`: the difference `t - u`, saturated to the range of
`time.Duration`. -/
def Time.Sub (t u : Int) : Int :=
  if t - u < minDuration then minDuration
  else if maxDuration < t - u then maxDuration
  else t - u

/-! ## API types (`api/v1/hpa_types.go`) -/

/-- The Go struct `JobSpec`. -/
structure JobSpec where
  Name : String
  Schedule : String
  Size : Int
deriving DecidableEq

/-- The Go struct `ScaleTarget`. -/
structure ScaleTarget where
  APIVersion : String
  Kind : String
  Name : String
deriving DecidableEq

/-- The Go struct `HpaSpec`. -/
structure HpaSpec where
  ScaleTarget : ScaleTarget
  Jobs : List JobSpec
deriving DecidableEq

/-- A Go `map[string]metav1.Time` that is not nil: an association list with
at most one entry per key. -/
abbrev TimeMap := List (String × Int)

/-- The Go struct `HpaStatus`.  `LastScaleTime` is a pointer and
`LastRuntimes` a map, both possibly nil (`none`). -/
structure HpaStatus where
  CurrentReplicas : Int
  LastScaleTime : Option Int
  LastRuntimes : Option TimeMap
deriving DecidableEq

/-- The Go struct `Hpa`, with the two fields of its `ObjectMeta` that the
controller reads. -/
structure Hpa where
  Namespace : String
  Name : String
  Spec : HpaSpec
  Status : HpaStatus
deriving DecidableEq

/-! ## Go maps -/

/-- The entry of a map at a key, if any. -/
def TimeMap.find (m : TimeMap) (k : String) : Option Int :=
  match m with
  | [] => none
  | (k1, v) :: rest => if k1 = k then some v else TimeMap.find rest k

/-- The map assignment `m[k] = v`. -/
def TimeMap.set (m : TimeMap) (k : String) (v : Int) : TimeMap :=
  match m with
  | [] => [(k, v)]
  | (k1, v1) :: rest =>
    if k1 = k then (k, v) :: rest else (k1, v1) :: TimeMap.set rest k v

/-- The entry of a possibly nil map at a key, if any. -/
def lookupRuntime (m : Option TimeMap) (k : String) : Option Int :=
  match m with
  | none => none
  | some l => TimeMap.find l k

/-- The index expression `m[k]` on a `map[string]metav1.Time`, unwrapped with
`.Time`: the zero time when the map is nil or has no entry at `k`. -/
def indexRuntime (m : Option TimeMap) (k : String) : Int :=
  match lookupRuntime m k with
  | some t => t
  | none => 0

/-! ## The API server -/

/-- Errors the controller can return. -/
inductive Err where
  /-- An API error for which `errors.IsNotFound` holds. -/
  | notFound
  /-- Any other API error (conflict, timeout, ...). -/
  | api (msg : String)
  /-- An error of the cron parser. -/
  | parse (msg : String)
  /-- The result of `fmt.Errorf(msg + ": %w", cause)`. -/
  | wrap (msg : String) (cause : Err)
deriving DecidableEq

/-- The Go struct `types.NamespacedName`. -/
structure NamespacedName where
  Namespace : String
  Name : String
deriving DecidableEq

/-- The part of `appsv1.Deployment` the controller touches: its key and
`Spec.Replicas`, a pointer that may be nil. -/
structure Deployment where
  Namespace : String
  Name : String
  Replicas : Option Int
deriving DecidableEq

/-- What a reconciliation pass does that can be observed from outside: its
calls to the API server and the log lines that name its decisions. -/
inductive Event where
  /-- The call `r.Get` for the `Hpa` resource. -/
  | getHpa (key : NamespacedName)
  /-- The call `r.Get` for a deployment. -/
  | getDeployment (key : NamespacedName)
  /-- The call `r.Update` with a deployment. -/
  | updateDeployment (obj : Deployment)
  /-- The call `r.Status().Update` with the resource. -/
  | updateStatus (obj : Hpa)
  /-- The log line "Job info". -/
  | jobInfo (name : String) (lastRunTime nextScheduledTime now : Int)
  /-- The log line "Updating deployment replicas", written right before the
  call of `updateDeploymentReplicas`. -/
  | updatingReplicas (name : String) (targetSize : Int)
deriving DecidableEq

/-- The API server as the controller sees it. -/
structure World where
  /-- The stored `Hpa` resources. -/
  hpas : List Hpa
  /-- The stored deployments. -/
  deployments : List Deployment
  /-- The failures to come: the n-th API call from now fails with the n-th
  entry when that entry is `some e`; past the end no call fails on its own. -/
  faults : List (Option Err)
  /-- The events so far, oldest first. -/
  events : List Event
deriving DecidableEq

/-- Record an event. -/
def World.emit (w : World) (e : Event) : World :=
  { w with events := w.events ++ [e] }

/-- Consume the next entry of the failure script. -/
def World.nextFault (w : World) : Option Err × World :=
  match w.faults with
  | [] => (none, w)
  | f :: rest => (f, { w with faults := rest })

/-- The stored `Hpa` at a key. -/
def findHpa (l : List Hpa) (key : NamespacedName) : Option Hpa :=
  l.find? (fun h => h.Namespace = key.Namespace ∧ h.Name = key.Name)

/-- The stored deployment at a key. -/
def findDeployment (l : List Deployment) (key : NamespacedName) : Option Deployment :=
  l.find? (fun d => d.Namespace = key.Namespace ∧ d.Name = key.Name)

/-- The call `r.Get(ctx, key, &cronhpa)`. -/
def World.getHpa (w : World) (key : NamespacedName) : Except Err Hpa × World :=
  let w1 := w.emit (.getHpa key)
  match w1.nextFault with
  | (some e, w2) => (.error e, w2)
  | (none, w2) =>
    match findHpa w2.hpas key with
    | none => (.error .notFound, w2)
    | some h => (.ok h, w2)

/-- The call `r.Get(ctx, key, deployment)`. -/
def World.getDeployment (w : World) (key : NamespacedName) : Except Err Deployment × World :=
  let w1 := w.emit (.getDeployment key)
  match w1.nextFault with
  | (some e, w2) => (.error e, w2)
  | (none, w2) =>
    match findDeployment w2.deployments key with
    | none => (.error .notFound, w2)
    | some d => (.ok d, w2)

/-- The call `r.Update(ctx, deployment)`: replaces the stored deployment that
has the key of `obj`. -/
def World.updateDeployment (w : World) (obj : Deployment) : Option Err × World :=
  let w1 := w.emit (.updateDeployment obj)
  match w1.nextFault with
  | (some e, w2) => (some e, w2)
  | (none, w2) =>
    match findDeployment w2.deployments ⟨obj.Namespace, obj.Name⟩ with
    | none => (some .notFound, w2)
    | some _ =>
      (none, { w2 with deployments := w2.deployments.map (fun d =>
        if d.Namespace = obj.Namespace ∧ d.Name = obj.Name then obj else d) })

/-- The call `r.Status().Update(ctx, &cronhpa)`: replaces the status, and only
the status, of the stored resource that has the key of `obj`. -/
def World.updateStatus (w : World) (obj : Hpa) : Option Err × World :=
  let w1 := w.emit (.updateStatus obj)
  match w1.nextFault with
  | (some e, w2) => (some e, w2)
  | (none, w2) =>
    match findHpa w2.hpas ⟨obj.Namespace, obj.Name⟩ with
    | none => (some .notFound, w2)
    | some _ =>
      (none, { w2 with hpas := w2.hpas.map (fun h =>
        if h.Namespace = obj.Namespace ∧ h.Name = obj.Name then
          { h with Status := obj.Status } else h) })

/-! ## The controller (`internal/controller/hpa_controller.go`) -/

/-- The method `Parse` of the cron parser built by `cron.NewParser(Minute |
Hour | Dom | Month | Dow)`: an error, or a schedule, given by its method
`Next`. -/
abbrev Parser := String → Except Err (Int → Int)

/-- The Go struct `reconcile.Result`. -/
structure Result where
  Requeue : Bool
  RequeueAfter : Int
deriving DecidableEq

/-- The zero value `reconcile.Result{}`. -/
def Result.zero : Result := ⟨false, 0⟩

/-- The method `getNextScheduledTime`: the pair of Go results. -/
def getNextScheduledTime (parser : Parser) (schedule : String) (after : Int) :
    Int × Option Err :=
  match parser schedule with
  | .error err => (0, some err)
  | .ok cronSchedule => (cronSchedule after, none)

/-- The method `updateDeploymentReplicas`; `none` is the nil error. -/
def updateDeploymentReplicas (cronhpa : Hpa) (scaleTargetRef : ScaleTarget) (job : JobSpec)
    (w : World) : Option Err × World :=
  let deploymentKey : NamespacedName := ⟨cronhpa.Namespace, scaleTargetRef.Name⟩
  match w.getDeployment deploymentKey with
  | (.error err, w1) => (some (.wrap "failed to get deployment" err), w1)
  | (.ok deployment, w1) =>
    if deployment.Replicas = some job.Size then (none, w1)
    else
      match w1.updateDeployment { deployment with Replicas := some job.Size } with
      | (some err, w2) => (some (.wrap "failed to update deployment" err), w2)
      | (none, w2) => (none, w2)

/-- The update `if earliest == nil || t.Before(*earliest) { earliest = &t }`. -/
def foldEarliest (earliestNextRunTime : Option Int) (t : Int) : Option Int :=
  match earliestNextRunTime with
  | none => some t
  | some e => if t < e then some t else some e

/-- The status after a job has been actuated at `now`. -/
def recordRun (status : HpaStatus) (job : JobSpec) (now : Int) : HpaStatus :=
  { CurrentReplicas := job.Size
    LastScaleTime := some now
    LastRuntimes :=
      match status.LastRuntimes with
      | none => some (TimeMap.set [] job.Name now)
      | some m => some (TimeMap.set m job.Name now) }

/-- The `for` loop of `Reconcile` over the jobs still to visit, from the
in-memory resource `cronhpa` and the current `earliestNextRunTime`.  An error
is an early `return`. -/
def reconcileJobs (parser : Parser) (now : Int) :
    List JobSpec → Hpa → Option Int → World → Except Err (Hpa × Option Int) × World
  | [], cronhpa, earliestNextRunTime, w => (.ok (cronhpa, earliestNextRunTime), w)
  | job :: rest, cronhpa, earliestNextRunTime, w =>
    let lastRunTime := indexRuntime cronhpa.Status.LastRuntimes job.Name
    match getNextScheduledTime parser job.Schedule lastRunTime with
    | (_, some err) => (.error err, w)
    | (nextScheduledTime, none) =>
      let w1 := w.emit (.jobInfo job.Name lastRunTime nextScheduledTime now)
      if now > nextScheduledTime ∨ now = nextScheduledTime then
        let w2 := w1.emit (.updatingReplicas cronhpa.Spec.ScaleTarget.Name job.Size)
        match updateDeploymentReplicas cronhpa cronhpa.Spec.ScaleTarget job w2 with
        | (some err, w3) => (.error err, w3)
        | (none, w3) =>
          let cronhpa1 := { cronhpa with Status := recordRun cronhpa.Status job now }
          let nextRunTime := (getNextScheduledTime parser job.Schedule now).1
          reconcileJobs parser now rest cronhpa1 (foldEarliest earliestNextRunTime nextRunTime) w3
      else
        reconcileJobs parser now rest cronhpa (foldEarliest earliestNextRunTime nextScheduledTime) w1

/-- The end of `Reconcile`: the result computed from `earliestNextRunTime`. -/
def requeueResult (earliestNextRunTime : Option Int) (now : Int) : Result :=
  match earliestNextRunTime with
  | some e =>
    let requeueAfter := Time.Sub e now
    if requeueAfter < 0 then ⟨false, Second⟩ else ⟨false, requeueAfter⟩
  | none => Result.zero

/-- The method `Reconcile`, for the request `req`, with `time.Now()` returning
`now`: the pair of Go results and the API server afterwards. -/
def Reconcile (parser : Parser) (now : Int) (req : NamespacedName) (w : World) :
    (Result × Option Err) × World :=
  match w.getHpa req with
  | (.error err, w1) =>
    if err = .notFound then ((Result.zero, none), w1) else ((Result.zero, some err), w1)
  | (.ok cronhpa, w1) =>
    match reconcileJobs parser now cronhpa.Spec.Jobs cronhpa none w1 with
    | (.error err, w2) => ((Result.zero, some err), w2)
    | (.ok (cronhpa1, earliestNextRunTime), w2) =>
      match w2.updateStatus cronhpa1 with
      | (some err, w3) => ((Result.zero, some err), w3)
      | (none, w3) => ((requeueResult earliestNextRunTime now, none), w3)

/-! ## Schedules for the examples -/

/-- Nanoseconds in a minute. -/
def nsPerMinute : Int := 60000000000

/-- Nanoseconds in an hour. -/
def nsPerHour : Int := 3600000000000

/-- Nanoseconds in a day. -/
def nsPerDay : Int := 86400000000000

/-- The schedule `* * * * *` in UTC: the first full minute strictly after
`after`. -/
def everyMinute (after : Int) : Int := (after / nsPerMinute + 1) * nsPerMinute

/-- The schedule `0 * * * *` in UTC: the first full hour strictly after
`after`. -/
def everyHour (after : Int) : Int := (after / nsPerHour + 1) * nsPerHour

/-- The instant 09:00:00 UTC of the day with number `d` (day 0 starts at the
zero time, a Monday). -/
def nineOn (d : Int) : Int := d * nsPerDay + 9 * nsPerHour

/-- Whether 09:00:00 UTC of day `d` is on a Monday to Friday and strictly
after `after`. -/
def firesOn (after : Int) (d : Int) : Bool :=
  decide (1 ≤ (d + 1) % 7 ∧ (d + 1) % 7 ≤ 5 ∧ after < nineOn d)

/-- The schedule `0 9 * * 1-5` in UTC: the first 09:00:00 of a Monday to
Friday strictly after `after`. -/
def weekdaysAtNine (after : Int) : Int :=
  let day := after / nsPerDay
  if firesOn after day then nineOn day
  else if firesOn after (day + 1) then nineOn (day + 1)
  else if firesOn after (day + 2) then nineOn (day + 2)
  else nineOn (day + 3)

/-- A parser for the examples: the three schedules above, read in UTC as cron
reads them, and a parse error on every other string. -/
def exampleParser : Parser := fun schedule =>
  if schedule = "* * * * *" then .ok everyMinute
  else if schedule = "0 * * * *" then .ok everyHour
  else if schedule = "0 9 * * 1-5" then .ok weekdaysAtNine
  else .error (.parse schedule)

/-- Monday 2024-01-01 09:00:00 UTC. -/
def monday0900 : Int := 63839696400000000000

/-- The key of the example resource. -/
def exampleKey : NamespacedName := ⟨"default", "cron"⟩

/-- The example resource with the given jobs and status. -/
def exampleHpa (jobs : List JobSpec) (status : HpaStatus) : Hpa :=
  { Namespace := "default", Name := "cron"
    Spec := { ScaleTarget := ⟨"apps/v1", "Deployment", "web"⟩, Jobs := jobs }
    Status := status }

/-- A server that stores one resource and its target deployment with one
replica, and never fails on its own. -/
def exampleWorld (jobs : List JobSpec) (status : HpaStatus) : World :=
  { hpas := [exampleHpa jobs status]
    deployments := [⟨"default", "web", some 1⟩]
    faults := []
    events := [] }

/-- Scenario A: one job on weekdays at nine that has never run. -/
def scenarioA : World :=
  exampleWorld [⟨"scale-up", "0 9 * * 1-5", 10⟩] ⟨0, none, none⟩

/-- Scenario B: the job of scenario A, with its run of Monday 09:00:00
recorded. -/
def scenarioB : World :=
  exampleWorld [⟨"scale-up", "0 9 * * 1-5", 10⟩]
    ⟨10, some monday0900, some [("scale-up", monday0900)]⟩

/-- Scenario C: two jobs that have never run, of sizes 3 and 7. -/
def scenarioC : World :=
  exampleWorld [⟨"jobA", "* * * * *", 3⟩, ⟨"jobB", "0 * * * *", 7⟩] ⟨0, none, none⟩

/-- Scenario D: a job that has never run, followed by a job whose schedule
has four fields. -/
def scenarioD : World :=
  exampleWorld [⟨"jobA", "* * * * *", 3⟩, ⟨"bad", "99 * * *", 7⟩] ⟨0, none, none⟩

/-- A job that fires every minute and last ran at 08:59:30. -/
def scenarioTick : World :=
  exampleWorld [⟨"tick", "* * * * *", 2⟩]
    ⟨2, some (monday0900 - 30 * Second), some [("tick", monday0900 - 30 * Second)]⟩

/-! ## Notions used in the statements -/

/-- The contract of the schedule evaluator taken from its interface: the
result of `Next` is strictly after its argument. -/
def StrictlyAfter (parser : Parser) : Prop :=
  ∀ schedule next, parser schedule = .ok next → ∀ t, t < next t

/-- The first result of `getNextScheduledTime` for a job, from the last run
recorded for it in a status. -/
def nextScheduled (parser : Parser) (status : HpaStatus) (job : JobSpec) : Int :=
  (getNextScheduledTime parser job.Schedule (indexRuntime status.LastRuntimes job.Name)).1

/-- The test of line 91 for a job against a status: `now` is at or after the
job's next scheduled time. -/
def isDue (parser : Parser) (now : Int) (status : HpaStatus) (job : JobSpec) : Bool :=
  decide (nextScheduled parser status job ≤ now)

/-- The wake-up time a job proposes: its next fire time after `now` when it is
due, its next scheduled time otherwise. -/
def candidate (parser : Parser) (now : Int) (status : HpaStatus) (job : JobSpec) : Int :=
  if isDue parser now status job then (getNextScheduledTime parser job.Schedule now).1
  else nextScheduled parser status job

/-- The invocations of the actuator announced in a list of events: target
name and size, in order. -/
def actuations : List Event → List (String × Int)
  | [] => []
  | .updatingReplicas name size :: rest => (name, size) :: actuations rest
  | _ :: rest => actuations rest

/-- Whether an event is a call to the deployment store. -/
def Event.isDeploymentCall : Event → Bool
  | .getDeployment _ => true
  | .updateDeployment _ => true
  | _ => false

/-- Whether an event is a write of the resource status. -/
def Event.isStatusWrite : Event → Bool
  | .updateStatus _ => true
  | _ => false

/-- Whether an event is the log line "Job info". -/
def Event.isJobInfo : Event → Bool
  | .jobInfo _ _ _ _ => true
  | _ => false

/-- A resource without its status: what a pass must leave alone. -/
def Hpa.frame (h : Hpa) : String × String × HpaSpec := (h.Namespace, h.Name, h.Spec)

/-- The world `w1` comes from `w` by steps that leave the stored resources
alone and only add events that satisfy `P`. -/
def Extends (P : Event → Prop) (w w1 : World) : Prop :=
  w1.hpas = w.hpas ∧ ∃ new, w1.events = w.events ++ new ∧ ∀ e ∈ new, P e

/-- The decisions of the loop of `Reconcile` when no call fails: the final
status, the final `earliestNextRunTime` and the jobs that fired, in order. -/
def planJobs (parser : Parser) (now : Int) :
    List JobSpec → HpaStatus → Option Int → HpaStatus × Option Int × List JobSpec
  | [], status, earliest => (status, earliest, [])
  | job :: rest, status, earliest =>
    if isDue parser now status job then
      let r := planJobs parser now rest (recordRun status job now)
        (foldEarliest earliest (getNextScheduledTime parser job.Schedule now).1)
      (r.1, r.2.1, job :: r.2.2)
    else
      planJobs parser now rest status (foldEarliest earliest (nextScheduled parser status job))

/-- The wake-up times the jobs propose in a pass, in order: each job is
judged against the status in memory when the loop reaches it. -/
def planCandidates (parser : Parser) (now : Int) : List JobSpec → HpaStatus → List Int
  | [], _ => []
  | job :: rest, status =>
    candidate parser now status job ::
      planCandidates parser now rest
        (if isDue parser now status job then recordRun status job now else status)

/-! ## The API server: what each call changes -/

theorem getDeployment_frame (w : World) (key : NamespacedName) :
    (w.getDeployment key).2.hpas = w.hpas ∧
    (w.getDeployment key).2.deployments = w.deployments ∧
    (w.getDeployment key).2.events = w.events ++ [.getDeployment key] := by
  obtain ⟨hp, dp, fl, ev⟩ := w
  rcases fl with _ | ⟨_ | e, rest⟩ <;>
    simp only [World.getDeployment, World.nextFault, World.emit] <;>
    (try split) <;> simp

theorem getDeployment_ok (w w1 : World) (key : NamespacedName) (d : Deployment)
    (h : w.getDeployment key = (.ok d, w1)) :
    findDeployment w.deployments key = some d := by
  obtain ⟨hp, dp, fl, ev⟩ := w
  rcases fl with _ | ⟨_ | e, rest⟩ <;>
    simp only [World.getDeployment, World.nextFault, World.emit] at h ⊢
  · split at h
    · simp at h
    · next d1 hd => simp at h; rw [hd, h.1]
  · split at h
    · simp at h
    · next d1 hd => simp at h; rw [hd, h.1]
  · simp at h

theorem updateDeployment_frame (w : World) (obj : Deployment) :
    (w.updateDeployment obj).2.hpas = w.hpas ∧
    (w.updateDeployment obj).2.events = w.events ++ [.updateDeployment obj] := by
  obtain ⟨hp, dp, fl, ev⟩ := w
  rcases fl with _ | ⟨_ | e, rest⟩ <;>
    simp only [World.updateDeployment, World.nextFault, World.emit] <;>
    (try split) <;> simp

theorem updateStatus_frame (w : World) (obj : Hpa) :
    (w.updateStatus obj).2.deployments = w.deployments ∧
    (w.updateStatus obj).2.events = w.events ++ [.updateStatus obj] := by
  obtain ⟨hp, dp, fl, ev⟩ := w
  rcases fl with _ | ⟨_ | e, rest⟩ <;>
    simp only [World.updateStatus, World.nextFault, World.emit] <;>
    (try split) <;> simp

theorem map_frame_setStatus (l : List Hpa) (obj : Hpa) :
    (l.map (fun h => if h.Namespace = obj.Namespace ∧ h.Name = obj.Name then
      { h with Status := obj.Status } else h)).map Hpa.frame = l.map Hpa.frame := by
  rw [List.map_map]
  apply List.map_congr_left
  intro h _
  simp only [Function.comp]
  split <;> rfl

theorem updateStatus_hpas_frame (w : World) (obj : Hpa) :
    (w.updateStatus obj).2.hpas.map Hpa.frame = w.hpas.map Hpa.frame := by
  obtain ⟨hp, dp, fl, ev⟩ := w
  rcases fl with _ | ⟨_ | e, rest⟩ <;>
    simp only [World.updateStatus, World.nextFault, World.emit] <;>
    (try split) <;> first | rfl | exact map_frame_setStatus _ _

theorem updateStatus_error (w w1 : World) (obj : Hpa) (err : Err)
    (h : w.updateStatus obj = (some err, w1)) : w1.hpas = w.hpas := by
  obtain ⟨hp, dp, fl, ev⟩ := w
  rcases fl with _ | ⟨_ | e, rest⟩ <;>
    simp only [World.updateStatus, World.nextFault, World.emit] at h ⊢
  · split at h
    · simp at h; rw [← h.2]
    · simp at h
  · split at h
    · simp at h; rw [← h.2]
    · simp at h
  · simp at h; rw [← h.2]

theorem getHpa_frame (w : World) (key : NamespacedName) :
    (w.getHpa key).2.hpas = w.hpas ∧ (w.getHpa key).2.deployments = w.deployments ∧
    (w.getHpa key).2.events = w.events ++ [.getHpa key] := by
  obtain ⟨hp, dp, fl, ev⟩ := w
  rcases fl with _ | ⟨_ | e, rest⟩ <;>
    simp only [World.getHpa, World.nextFault, World.emit] <;>
    (try split) <;> simp

theorem getHpa_ok (w w1 : World) (key : NamespacedName) (h : Hpa)
    (hget : w.getHpa key = (.ok h, w1)) : findHpa w.hpas key = some h := by
  obtain ⟨hp, dp, fl, ev⟩ := w
  rcases fl with _ | ⟨_ | e, rest⟩ <;>
    simp only [World.getHpa, World.nextFault, World.emit] at hget ⊢
  · split at hget
    · simp at hget
    · next d1 hd => simp at hget; rw [hd, hget.1]
  · split at hget
    · simp at hget
    · next d1 hd => simp at hget; rw [hd, hget.1]
  · simp at hget

theorem findHpa_key (l : List Hpa) (key : NamespacedName) (h : Hpa)
    (hf : findHpa l key = some h) : h.Namespace = key.Namespace ∧ h.Name = key.Name := by
  unfold findHpa at hf
  have := List.find?_some hf
  simpa using this

theorem findDeployment_key (l : List Deployment) (key : NamespacedName) (d : Deployment)
    (hf : findDeployment l key = some d) :
    d.Namespace = key.Namespace ∧ d.Name = key.Name := by
  unfold findDeployment at hf
  have := List.find?_some hf
  simpa using this

/-! ## Worlds that extend one another -/

theorem Extends.refl (P : Event → Prop) (w : World) : Extends P w w :=
  ⟨rfl, [], by simp, by simp⟩

theorem Extends.trans {P : Event → Prop} {a b c : World} (h1 : Extends P a b)
    (h2 : Extends P b c) : Extends P a c := by
  obtain ⟨ha, n1, he1, hp1⟩ := h1
  obtain ⟨hb, n2, he2, hp2⟩ := h2
  refine ⟨hb.trans ha, n1 ++ n2, by rw [he2, he1, List.append_assoc], ?_⟩
  intro e he
  rcases List.mem_append.mp he with h | h
  · exact hp1 e h
  · exact hp2 e h

theorem Extends.mono {P Q : Event → Prop} {a b : World} (hPQ : ∀ e, P e → Q e)
    (h : Extends P a b) : Extends Q a b := by
  obtain ⟨ha, n1, he1, hp1⟩ := h
  exact ⟨ha, n1, he1, fun e he => hPQ e (hp1 e he)⟩

theorem Extends.emit {P : Event → Prop} (w : World) (e : Event) (h : P e) :
    Extends P w (w.emit e) :=
  ⟨rfl, [e], rfl, by simpa using h⟩

/-! ## The actuator -/

theorem actuations_append (a b : List Event) :
    actuations (a ++ b) = actuations a ++ actuations b := by
  induction a with
  | nil => rfl
  | cons e rest ih => cases e <;> simp [actuations, ih]

theorem actuations_deploymentCalls (l : List Event)
    (h : ∀ e ∈ l, e.isDeploymentCall = true) : actuations l = [] := by
  induction l with
  | nil => rfl
  | cons e rest ih =>
    have he := h e (List.mem_cons_self _ _)
    have hr := ih (fun x hx => h x (List.mem_cons_of_mem _ hx))
    cases e <;> simp_all [actuations, Event.isDeploymentCall]

theorem getDeployment_extends (w : World) (key : NamespacedName) :
    Extends (fun e => e.isDeploymentCall = true) w (w.getDeployment key).2 := by
  obtain ⟨h1, -, h3⟩ := getDeployment_frame w key
  exact ⟨h1, _, h3, by simp [Event.isDeploymentCall]⟩

theorem updateDeployment_extends (w : World) (obj : Deployment) :
    Extends (fun e => e.isDeploymentCall = true) w (w.updateDeployment obj).2 := by
  obtain ⟨h1, h3⟩ := updateDeployment_frame w obj
  exact ⟨h1, _, h3, by simp [Event.isDeploymentCall]⟩

theorem updateDeploymentReplicas_extends (cronhpa : Hpa) (target : ScaleTarget) (job : JobSpec)
    (w : World) :
    Extends (fun e => e.isDeploymentCall = true) w
      (updateDeploymentReplicas cronhpa target job w).2 := by
  have hg := getDeployment_extends w ⟨cronhpa.Namespace, target.Name⟩
  simp only [updateDeploymentReplicas]
  rcases hget : w.getDeployment ⟨cronhpa.Namespace, target.Name⟩ with ⟨r, w1⟩
  rw [hget] at hg
  cases r with
  | error err => exact hg
  | ok deployment =>
    simp only []
    split
    · exact hg
    · have hu := updateDeployment_extends w1 { deployment with Replicas := some job.Size }
      rcases hupd : w1.updateDeployment { deployment with Replicas := some job.Size } with ⟨r2, w2⟩
      rw [hupd] at hu
      cases r2 <;> exact hg.trans hu

/-! ## The loop over the jobs -/

theorem due_iff (parser : Parser) (now : Int) (status : HpaStatus) (job : JobSpec)
    (next : Int → Int) (hp : parser job.Schedule = .ok next) :
    (now > next (indexRuntime status.LastRuntimes job.Name) ∨
      now = next (indexRuntime status.LastRuntimes job.Name)) ↔
    isDue parser now status job = true := by
  simp only [isDue, nextScheduled, getNextScheduledTime, hp, decide_eq_true_eq]
  omega

/-- The events the loop may add: the two log lines and the calls to the
deployment store. -/
theorem reconcileJobs_frame (parser : Parser) (now : Int) :
    ∀ (jobs : List JobSpec) (cronhpa : Hpa) (earliest : Option Int) (w : World),
      Extends (fun e => e.isStatusWrite = false) w
        (reconcileJobs parser now jobs cronhpa earliest w).2 := by
  intro jobs
  induction jobs with
  | nil =>
    intro cronhpa earliest w
    exact Extends.refl _ _
  | cons job rest ih =>
    intro cronhpa earliest w
    rw [reconcileJobs]
    cases hp : parser job.Schedule with
    | error err =>
      simp only [getNextScheduledTime, hp]
      exact Extends.refl _ _
    | ok next =>
      simp only [getNextScheduledTime, hp]
      have e1 := Extends.emit (P := fun e => e.isStatusWrite = false) w
        (.jobInfo job.Name (indexRuntime cronhpa.Status.LastRuntimes job.Name)
          (next (indexRuntime cronhpa.Status.LastRuntimes job.Name)) now) rfl
      split
      · have e2 := Extends.emit (P := fun e => e.isStatusWrite = false)
          (w.emit (.jobInfo job.Name (indexRuntime cronhpa.Status.LastRuntimes job.Name)
            (next (indexRuntime cronhpa.Status.LastRuntimes job.Name)) now))
          (.updatingReplicas cronhpa.Spec.ScaleTarget.Name job.Size) rfl
        have hu := updateDeploymentReplicas_extends cronhpa cronhpa.Spec.ScaleTarget job
          ((w.emit (.jobInfo job.Name (indexRuntime cronhpa.Status.LastRuntimes job.Name)
            (next (indexRuntime cronhpa.Status.LastRuntimes job.Name)) now)).emit
            (.updatingReplicas cronhpa.Spec.ScaleTarget.Name job.Size))
        have hu2 : Extends (fun e => e.isStatusWrite = false) _ _ :=
          hu.mono (fun e he => by cases e <;> simp_all [Event.isDeploymentCall, Event.isStatusWrite])
        rcases hupd : updateDeploymentReplicas cronhpa cronhpa.Spec.ScaleTarget job
          ((w.emit (.jobInfo job.Name (indexRuntime cronhpa.Status.LastRuntimes job.Name)
            (next (indexRuntime cronhpa.Status.LastRuntimes job.Name)) now)).emit
            (.updatingReplicas cronhpa.Spec.ScaleTarget.Name job.Size)) with ⟨r, w3⟩
        rw [hupd] at hu2
        cases r with
        | some err => exact (e1.trans e2).trans hu2
        | none => exact ((e1.trans e2).trans hu2).trans (ih _ _ _)
      · exact e1.trans (ih _ _ _)

/-- A pass of the loop that returns normally parsed every schedule and took
the decisions of `planJobs`. -/
theorem reconcileJobs_ok (parser : Parser) (now : Int) :
    ∀ (jobs : List JobSpec) (cronhpa : Hpa) (earliest : Option Int) (w : World)
      (cronhpa1 : Hpa) (earliest1 : Option Int) (w1 : World),
      reconcileJobs parser now jobs cronhpa earliest w = (.ok (cronhpa1, earliest1), w1) →
      (∀ job ∈ jobs, ∃ next, parser job.Schedule = .ok next) ∧
      cronhpa1 = { cronhpa with
        Status := (planJobs parser now jobs cronhpa.Status earliest).1 } ∧
      earliest1 = (planJobs parser now jobs cronhpa.Status earliest).2.1 ∧
      ∃ new, w1.events = w.events ++ new ∧
        actuations new = (planJobs parser now jobs cronhpa.Status earliest).2.2.map
          (fun j => (cronhpa.Spec.ScaleTarget.Name, j.Size)) := by
  intro jobs
  induction jobs with
  | nil =>
    intro cronhpa earliest w cronhpa1 earliest1 w1 h
    simp only [reconcileJobs, Prod.mk.injEq, Except.ok.injEq] at h
    obtain ⟨⟨h1, h2⟩, h3⟩ := h
    subst h1 h2 h3
    exact ⟨by simp, rfl, rfl, [], by simp, rfl⟩
  | cons job rest ih =>
    intro cronhpa earliest w cronhpa1 earliest1 w1 h
    rw [reconcileJobs] at h
    cases hp : parser job.Schedule with
    | error err => simp [getNextScheduledTime, hp] at h
    | ok next =>
      have hdue := due_iff parser now cronhpa.Status job next hp
      simp only [getNextScheduledTime, hp] at h
      by_cases hd : isDue parser now cronhpa.Status job = true
      · rw [if_pos (hdue.mpr hd)] at h
        have hu := updateDeploymentReplicas_extends cronhpa cronhpa.Spec.ScaleTarget job
          ((w.emit (.jobInfo job.Name (indexRuntime cronhpa.Status.LastRuntimes job.Name)
            (next (indexRuntime cronhpa.Status.LastRuntimes job.Name)) now)).emit
            (.updatingReplicas cronhpa.Spec.ScaleTarget.Name job.Size))
        rcases hupd : updateDeploymentReplicas cronhpa cronhpa.Spec.ScaleTarget job
          ((w.emit (.jobInfo job.Name (indexRuntime cronhpa.Status.LastRuntimes job.Name)
            (next (indexRuntime cronhpa.Status.LastRuntimes job.Name)) now)).emit
            (.updatingReplicas cronhpa.Spec.ScaleTarget.Name job.Size)) with ⟨r, w3⟩
        rw [hupd] at h hu
        cases r with
        | some err => simp at h
        | none =>
          simp only [] at h
          obtain ⟨ih1, ih2, ih3, new2, ih4, ih5⟩ := ih _ _ _ _ _ _ h
          obtain ⟨-, new1, hu2, hu3⟩ := hu
          have hplan : planJobs parser now (job :: rest) cronhpa.Status earliest =
              ((planJobs parser now rest (recordRun cronhpa.Status job now)
                  (foldEarliest earliest (next now))).1,
               (planJobs parser now rest (recordRun cronhpa.Status job now)
                  (foldEarliest earliest (next now))).2.1,
               job :: (planJobs parser now rest (recordRun cronhpa.Status job now)
                  (foldEarliest earliest (next now))).2.2) := by
            rw [planJobs, if_pos hd]
            simp only [getNextScheduledTime, hp]
          rw [hplan]
          refine ⟨?_, ih2, ih3, ?_⟩
          · intro j hj
            rcases List.mem_cons.mp hj with hj | hj
            · subst hj; exact ⟨next, hp⟩
            · exact ih1 j hj
          · refine ⟨[.jobInfo job.Name (indexRuntime cronhpa.Status.LastRuntimes job.Name)
                (next (indexRuntime cronhpa.Status.LastRuntimes job.Name)) now,
              .updatingReplicas cronhpa.Spec.ScaleTarget.Name job.Size] ++ new1 ++ new2, ?_, ?_⟩
            · rw [ih4, hu2]; simp [World.emit]
            · rw [actuations_append, actuations_append, ih5,
                actuations_deploymentCalls new1 hu3]
              simp [actuations]
      · have hnd : ¬ (now > next (indexRuntime cronhpa.Status.LastRuntimes job.Name) ∨
            now = next (indexRuntime cronhpa.Status.LastRuntimes job.Name)) :=
          fun hc => hd (hdue.mp hc)
        rw [if_neg hnd] at h
        obtain ⟨ih1, ih2, ih3, new2, ih4, ih5⟩ := ih _ _ _ _ _ _ h
        have hplan : planJobs parser now (job :: rest) cronhpa.Status earliest =
            planJobs parser now rest cronhpa.Status
              (foldEarliest earliest (next (indexRuntime cronhpa.Status.LastRuntimes job.Name))) := by
          rw [planJobs, if_neg hd]
          simp only [nextScheduled, getNextScheduledTime, hp]
        rw [hplan]
        refine ⟨?_, ih2, ih3, ?_⟩
        · intro j hj
          rcases List.mem_cons.mp hj with hj | hj
          · subst hj; exact ⟨next, hp⟩
          · exact ih1 j hj
        · refine ⟨[.jobInfo job.Name (indexRuntime cronhpa.Status.LastRuntimes job.Name)
              (next (indexRuntime cronhpa.Status.LastRuntimes job.Name)) now] ++ new2, ?_, ?_⟩
          · rw [ih4]; simp [World.emit]
          · rw [actuations_append, ih5]
            simp [actuations]

/-! ## Maps and the recorded runs -/

theorem find_set (m : TimeMap) (k k1 : String) (v : Int) :
    TimeMap.find (TimeMap.set m k v) k1 = if k1 = k then some v else TimeMap.find m k1 := by
  induction m with
  | nil =>
    simp only [TimeMap.set, TimeMap.find]
    by_cases h : k1 = k
    · simp [h]
    · have : ¬ k = k1 := fun hc => h hc.symm
      simp [h, this]
  | cons p rest ih =>
    obtain ⟨k2, v2⟩ := p
    simp only [TimeMap.set]
    by_cases h2 : k2 = k
    · simp only [h2, if_true, TimeMap.find]
      by_cases h : k1 = k
      · simp [h]
      · have : ¬ k = k1 := fun hc => h hc.symm
        simp [h, this]
    · simp only [h2, if_false, TimeMap.find, ih]
      by_cases h : k2 = k1
      · have : ¬ k1 = k := fun hc => h2 (h.trans hc)
        simp [h, this]
      · simp [h]

theorem lookup_recordRun (status : HpaStatus) (job : JobSpec) (now : Int) (k : String) :
    lookupRuntime (recordRun status job now).LastRuntimes k =
      if k = job.Name then some now else lookupRuntime status.LastRuntimes k := by
  unfold recordRun
  cases hm : status.LastRuntimes with
  | none => simp only [lookupRuntime, find_set]; rfl
  | some m => simp only [lookupRuntime, find_set]

theorem index_recordRun (status : HpaStatus) (job : JobSpec) (now : Int) (k : String) :
    indexRuntime (recordRun status job now).LastRuntimes k =
      if k = job.Name then now else indexRuntime status.LastRuntimes k := by
  unfold indexRuntime
  rw [lookup_recordRun]
  by_cases hk : k = job.Name
  · simp [hk]
  · simp [hk]

theorem isDue_congr (parser : Parser) (now : Int) (s1 s2 : HpaStatus) (job : JobSpec)
    (h : indexRuntime s1.LastRuntimes job.Name = indexRuntime s2.LastRuntimes job.Name) :
    isDue parser now s1 job = isDue parser now s2 job := by
  unfold isDue nextScheduled
  rw [h]

theorem candidate_congr (parser : Parser) (now : Int) (s1 s2 : HpaStatus) (job : JobSpec)
    (h : indexRuntime s1.LastRuntimes job.Name = indexRuntime s2.LastRuntimes job.Name) :
    candidate parser now s1 job = candidate parser now s2 job := by
  unfold candidate isDue nextScheduled
  rw [h]

/-! ## The decisions of a pass -/

theorem planJobs_due (parser : Parser) (now : Int) (job : JobSpec) (rest : List JobSpec)
    (status : HpaStatus) (earliest : Option Int) (h : isDue parser now status job = true) :
    planJobs parser now (job :: rest) status earliest =
      ((planJobs parser now rest (recordRun status job now)
          (foldEarliest earliest (candidate parser now status job))).1,
       (planJobs parser now rest (recordRun status job now)
          (foldEarliest earliest (candidate parser now status job))).2.1,
       job :: (planJobs parser now rest (recordRun status job now)
          (foldEarliest earliest (candidate parser now status job))).2.2) := by
  rw [planJobs, if_pos h]
  simp only [candidate, h, if_true]

theorem planJobs_notDue (parser : Parser) (now : Int) (job : JobSpec) (rest : List JobSpec)
    (status : HpaStatus) (earliest : Option Int) (h : ¬ isDue parser now status job = true) :
    planJobs parser now (job :: rest) status earliest =
      planJobs parser now rest status
        (foldEarliest earliest (candidate parser now status job)) := by
  rw [planJobs, if_neg h]
  simp only [candidate, h, if_false]
  rfl

/-- The status after a pass, from the jobs that fired. -/
theorem planJobs_status (parser : Parser) (now : Int) :
    ∀ (jobs : List JobSpec) (status : HpaStatus) (earliest : Option Int),
      ((planJobs parser now jobs status earliest).2.2 = [] →
        (planJobs parser now jobs status earliest).1 = status) ∧
      (∀ last, (planJobs parser now jobs status earliest).2.2.getLast? = some last →
        (planJobs parser now jobs status earliest).1.CurrentReplicas = last.Size ∧
        (planJobs parser now jobs status earliest).1.LastScaleTime = some now) ∧
      ∀ k, lookupRuntime (planJobs parser now jobs status earliest).1.LastRuntimes k =
        if k ∈ (planJobs parser now jobs status earliest).2.2.map JobSpec.Name then some now
        else lookupRuntime status.LastRuntimes k := by
  intro jobs
  induction jobs with
  | nil =>
    intro status earliest
    simp [planJobs]
  | cons job rest ih =>
    intro status earliest
    by_cases hd : isDue parser now status job = true
    · rw [planJobs_due parser now job rest status earliest hd]
      obtain ⟨ih1, ih2, ih3⟩ := ih (recordRun status job now)
        (foldEarliest earliest (candidate parser now status job))
      refine ⟨by simp, ?_, ?_⟩
      · intro last hl
        simp only [] at hl ⊢
        cases hf : (planJobs parser now rest (recordRun status job now)
            (foldEarliest earliest (candidate parser now status job))).2.2 with
        | nil =>
          rw [hf] at hl
          simp at hl
          rw [ih1 hf, ← hl]
          exact ⟨rfl, rfl⟩
        | cons x xs =>
          rw [hf] at hl
          rw [List.getLast?_cons_cons] at hl
          rw [← hf] at hl
          exact ih2 last hl
      · intro k
        simp only [List.map_cons, List.mem_cons]
        rw [ih3 k, lookup_recordRun]
        by_cases hk : k = job.Name
        · simp [hk]
        · simp [hk]
    · rw [planJobs_notDue parser now job rest status earliest hd]
      exact ih status _

/-- With distinct job names every job is judged against the status the pass
started from. -/
theorem planJobs_nodup (parser : Parser) (now : Int) (status0 : HpaStatus) :
    ∀ (jobs : List JobSpec) (status : HpaStatus) (earliest : Option Int),
      (jobs.map JobSpec.Name).Nodup →
      (∀ j ∈ jobs, indexRuntime status.LastRuntimes j.Name =
        indexRuntime status0.LastRuntimes j.Name) →
      (planJobs parser now jobs status earliest).2.2 =
        jobs.filter (fun j => isDue parser now status0 j) ∧
      (planJobs parser now jobs status earliest).2.1 =
        (jobs.map (candidate parser now status0)).foldl foldEarliest earliest := by
  intro jobs
  induction jobs with
  | nil =>
    intro status earliest _ _
    simp [planJobs]
  | cons job rest ih =>
    intro status earliest hnd hidx
    have hj := hidx job (List.mem_cons_self _ _)
    have hrest : ∀ j ∈ rest, indexRuntime status.LastRuntimes j.Name =
        indexRuntime status0.LastRuntimes j.Name :=
      fun j hm => hidx j (List.mem_cons_of_mem _ hm)
    rw [List.map_cons, List.nodup_cons] at hnd
    have hc := candidate_congr parser now status status0 job hj
    have hi := isDue_congr parser now status status0 job hj
    by_cases hd : isDue parser now status job = true
    · rw [planJobs_due parser now job rest status earliest hd]
      have hrest1 : ∀ j ∈ rest, indexRuntime (recordRun status job now).LastRuntimes j.Name =
          indexRuntime status0.LastRuntimes j.Name := by
        intro j hm
        rw [index_recordRun]
        have hne : j.Name ≠ job.Name := by
          intro hc1
          exact hnd.1 (hc1 ▸ List.mem_map_of_mem JobSpec.Name hm)
        rw [if_neg hne]
        exact hrest j hm
      obtain ⟨ih1, ih2⟩ := ih (recordRun status job now)
        (foldEarliest earliest (candidate parser now status job)) hnd.2 hrest1
      refine ⟨?_, ?_⟩
      · simp only []
        rw [ih1, List.filter_cons, ← hi, hd]
        simp
      · simp only []
        rw [ih2, List.map_cons, List.foldl_cons, hc]
    · rw [planJobs_notDue parser now job rest status earliest hd]
      obtain ⟨ih1, ih2⟩ := ih status
        (foldEarliest earliest (candidate parser now status job)) hnd.2 hrest
      refine ⟨?_, ?_⟩
      · rw [ih1, List.filter_cons, ← hi]
        simp [hd]
      · rw [ih2, List.map_cons, List.foldl_cons, hc]

/-- A job that did not fire, and whose name no fired job has, was not due. -/
theorem planJobs_unfired (parser : Parser) (now : Int) :
    ∀ (jobs : List JobSpec) (status : HpaStatus) (earliest : Option Int) (j : JobSpec),
      j ∈ jobs →
      j.Name ∉ (planJobs parser now jobs status earliest).2.2.map JobSpec.Name →
      isDue parser now status j = false := by
  intro jobs
  induction jobs with
  | nil => intro _ _ j hj; simp at hj
  | cons job rest ih =>
    intro status earliest j hj hn
    by_cases hd : isDue parser now status job = true
    · rw [planJobs_due parser now job rest status earliest hd] at hn
      simp only [List.map_cons, List.mem_cons, not_or] at hn
      obtain ⟨hne, hn2⟩ := hn
      rcases List.mem_cons.mp hj with hj | hj
      · exact absurd (hj ▸ rfl) hne
      · have := ih _ _ j hj hn2
        rw [← this]
        apply isDue_congr
        rw [index_recordRun, if_neg hne]
    · rw [planJobs_notDue parser now job rest status earliest hd] at hn
      rcases List.mem_cons.mp hj with hj | hj
      · subst hj; simpa using hd
      · exact ih _ _ j hj hn

/-- Under the evaluator's contract no job is due against the status a pass
leaves behind. -/
theorem planJobs_settled (parser : Parser) (now : Int) (hstrict : StrictlyAfter parser)
    (jobs : List JobSpec) (status : HpaStatus) (earliest : Option Int)
    (hparse : ∀ j ∈ jobs, ∃ next, parser j.Schedule = .ok next) :
    ∀ j ∈ jobs, isDue parser now (planJobs parser now jobs status earliest).1 j = false := by
  intro j hj
  obtain ⟨-, -, h3⟩ := planJobs_status parser now jobs status earliest
  by_cases hm : j.Name ∈ (planJobs parser now jobs status earliest).2.2.map JobSpec.Name
  · obtain ⟨next, hp⟩ := hparse j hj
    have hl := h3 j.Name
    rw [if_pos hm] at hl
    have hs := hstrict j.Schedule next hp now
    simp only [isDue, nextScheduled, getNextScheduledTime, hp, indexRuntime, hl,
      decide_eq_false_iff_not, not_le]
    exact hs
  · have hl := h3 j.Name
    rw [if_neg hm] at hl
    rw [← planJobs_unfired parser now jobs status earliest j hj hm]
    apply isDue_congr
    simp only [indexRuntime, hl]

/-! ## The earliest next run time -/

theorem foldEarliest_foldl_some (l : List Int) (y : Int) :
    ∃ m, l.foldl foldEarliest (some y) = some m := by
  induction l generalizing y with
  | nil => exact ⟨y, rfl⟩
  | cons x rest ih =>
    simp only [List.foldl_cons, foldEarliest]
    split
    · exact ih x
    · exact ih y

theorem foldEarliest_foldl_min (l : List Int) :
    ∀ (e : Option Int) (m : Int), l.foldl foldEarliest e = some m →
      (m ∈ l ∨ e = some m) ∧ (∀ x ∈ l, m ≤ x) ∧ ∀ y, e = some y → m ≤ y := by
  induction l with
  | nil =>
    intro e m h
    simp only [List.foldl_nil] at h
    subst h
    simp
  | cons x rest ih =>
    intro e m h
    simp only [List.foldl_cons] at h
    obtain ⟨h1, h2, h3⟩ := ih _ m h
    cases e with
    | none =>
      simp only [foldEarliest] at h1 h3
      have hx := h3 x rfl
      refine ⟨?_, ?_, by simp⟩
      · rcases h1 with h1 | h1
        · exact Or.inl (List.mem_cons_of_mem _ h1)
        · simp only [Option.some.injEq] at h1
          subst h1
          exact Or.inl (List.mem_cons_self _ _)
      · intro z hz
        rcases List.mem_cons.mp hz with hz | hz
        · subst hz; exact hx
        · exact h2 z hz
    | some y =>
      simp only [foldEarliest] at h1 h3
      by_cases hlt : x < y
      · rw [if_pos hlt] at h1 h3
        have hx := h3 x rfl
        refine ⟨?_, ?_, ?_⟩
        · rcases h1 with h1 | h1
          · exact Or.inl (List.mem_cons_of_mem _ h1)
          · simp only [Option.some.injEq] at h1
            subst h1
            exact Or.inl (List.mem_cons_self _ _)
        · intro z hz
          rcases List.mem_cons.mp hz with hz | hz
          · subst hz; exact hx
          · exact h2 z hz
        · intro y1 hy1
          simp only [Option.some.injEq] at hy1
          omega
      · rw [if_neg hlt] at h1 h3
        have hy := h3 y rfl
        refine ⟨?_, ?_, ?_⟩
        · rcases h1 with h1 | h1
          · exact Or.inl (List.mem_cons_of_mem _ h1)
          · exact Or.inr h1
        · intro z hz
          rcases List.mem_cons.mp hz with hz | hz
          · subst hz; omega
          · exact h2 z hz
        · intro y1 hy1
          simp only [Option.some.injEq] at hy1
          omega

theorem planJobs_earliest_some (parser : Parser) (now : Int) (job : JobSpec)
    (rest : List JobSpec) (status : HpaStatus) (earliest : Option Int) :
    ∃ m, (planJobs parser now (job :: rest) status earliest).2.1 = some m := by
  have key : ∀ (jobs : List JobSpec) (st : HpaStatus) (y : Int),
      ∃ m, (planJobs parser now jobs st (some y)).2.1 = some m := by
    intro jobs
    induction jobs with
    | nil => intro st y; exact ⟨y, rfl⟩
    | cons j js ih =>
      intro st y
      by_cases hd : isDue parser now st j = true
      · rw [planJobs_due parser now j js st _ hd]
        simp only [foldEarliest]
        split <;> exact ih _ _
      · rw [planJobs_notDue parser now j js st _ hd]
        simp only [foldEarliest]
        split <;> exact ih _ _
  have hsome : ∀ t, ∃ y, foldEarliest earliest t = some y := by
    intro t
    cases earliest with
    | none => exact ⟨t, rfl⟩
    | some e => simp only [foldEarliest]; split <;> exact ⟨_, rfl⟩
  by_cases hd : isDue parser now status job = true
  · rw [planJobs_due parser now job rest status _ hd]
    obtain ⟨y, hy⟩ := hsome (candidate parser now status job)
    rw [hy]
    exact key _ _ _
  · rw [planJobs_notDue parser now job rest status _ hd]
    obtain ⟨y, hy⟩ := hsome (candidate parser now status job)
    rw [hy]
    exact key _ _ _

theorem candidate_after (parser : Parser) (now : Int) (hstrict : StrictlyAfter parser)
    (status : HpaStatus) (job : JobSpec) (next : Int → Int)
    (hp : parser job.Schedule = .ok next) : now < candidate parser now status job := by
  unfold candidate
  split
  · simp only [getNextScheduledTime, hp]
    exact hstrict _ _ hp now
  · next hd =>
    simp only [isDue, decide_eq_true_eq, not_le] at hd
    exact hd

/-- Under the evaluator's contract the earliest next run time of a pass is
strictly after `now`. -/
theorem planJobs_earliest_after (parser : Parser) (now : Int) (hstrict : StrictlyAfter parser) :
    ∀ (jobs : List JobSpec) (status : HpaStatus) (earliest : Option Int),
      (∀ j ∈ jobs, ∃ next, parser j.Schedule = .ok next) →
      (∀ y, earliest = some y → now < y) →
      ∀ m, (planJobs parser now jobs status earliest).2.1 = some m → now < m := by
  intro jobs
  induction jobs with
  | nil =>
    intro status earliest _ he m hm
    exact he m hm
  | cons job rest ih =>
    intro status earliest hparse he m hm
    obtain ⟨next, hp⟩ := hparse job (List.mem_cons_self _ _)
    have hc := candidate_after parser now hstrict status job next hp
    have hfold : ∀ y, foldEarliest earliest (candidate parser now status job) = some y →
        now < y := by
      intro y hy
      cases earliest with
      | none =>
        simp only [foldEarliest, Option.some.injEq] at hy
        omega
      | some e =>
        have := he e rfl
        simp only [foldEarliest] at hy
        split at hy <;> simp only [Option.some.injEq] at hy <;> omega
    have hrest : ∀ j ∈ rest, ∃ next, parser j.Schedule = .ok next :=
      fun j hj => hparse j (List.mem_cons_of_mem _ hj)
    by_cases hd : isDue parser now status job = true
    · rw [planJobs_due parser now job rest status _ hd] at hm
      exact ih _ _ hrest hfold m hm
    · rw [planJobs_notDue parser now job rest status _ hd] at hm
      exact ih _ _ hrest hfold m hm

/-! ## A pass as a whole -/

theorem findHpa_setStatus (l : List Hpa) (key : NamespacedName) (h obj : Hpa)
    (hf : findHpa l key = some h) (hns : obj.Namespace = key.Namespace)
    (hname : obj.Name = key.Name) :
    findHpa (l.map (fun x => if x.Namespace = obj.Namespace ∧ x.Name = obj.Name then
      { x with Status := obj.Status } else x)) key = some { h with Status := obj.Status } := by
  unfold findHpa at hf ⊢
  induction l with
  | nil => simp at hf
  | cons x rest ih =>
    rw [List.map_cons]
    by_cases hx : x.Namespace = key.Namespace ∧ x.Name = key.Name
    · have hx1 : x.Namespace = obj.Namespace ∧ x.Name = obj.Name := by
        rw [hns, hname]; exact hx
      rw [List.find?_cons_of_pos _ (by simpa using hx)] at hf
      simp only [Option.some.injEq] at hf
      subst hf
      rw [if_pos hx1, List.find?_cons_of_pos _ (by simpa using hx)]
    · have hx1 : ¬ (x.Namespace = obj.Namespace ∧ x.Name = obj.Name) := by
        rw [hns, hname]; exact hx
      rw [List.find?_cons_of_neg _ (by simpa using hx)] at hf
      rw [if_neg hx1, List.find?_cons_of_neg _ (by simpa using hx)]
      exact ih hf

theorem findDeployment_replace (l : List Deployment) (key : NamespacedName) (d obj : Deployment)
    (hf : findDeployment l key = some d) (hns : obj.Namespace = key.Namespace)
    (hname : obj.Name = key.Name) :
    findDeployment (l.map (fun x => if x.Namespace = obj.Namespace ∧ x.Name = obj.Name then
      obj else x)) key = some obj := by
  unfold findDeployment at hf ⊢
  induction l with
  | nil => simp at hf
  | cons x rest ih =>
    rw [List.map_cons]
    by_cases hx : x.Namespace = key.Namespace ∧ x.Name = key.Name
    · have hx1 : x.Namespace = obj.Namespace ∧ x.Name = obj.Name := by
        rw [hns, hname]; exact hx
      have ho : obj.Namespace = key.Namespace ∧ obj.Name = key.Name := ⟨hns, hname⟩
      rw [if_pos hx1, List.find?_cons_of_pos _ (by simpa using ho)]
    · have hx1 : ¬ (x.Namespace = obj.Namespace ∧ x.Name = obj.Name) := by
        rw [hns, hname]; exact hx
      rw [List.find?_cons_of_neg _ (by simpa using hx)] at hf
      rw [if_neg hx1, List.find?_cons_of_neg _ (by simpa using hx)]
      exact ih hf

theorem updateStatus_ok (w w1 : World) (key : NamespacedName) (h obj : Hpa)
    (hf : findHpa w.hpas key = some h) (hns : obj.Namespace = key.Namespace)
    (hname : obj.Name = key.Name) (hu : w.updateStatus obj = (none, w1)) :
    findHpa w1.hpas key = some { h with Status := obj.Status } := by
  obtain ⟨hp, dp, fl, ev⟩ := w
  have hkey : (⟨obj.Namespace, obj.Name⟩ : NamespacedName) = key := by
    cases key; simp_all
  rcases fl with _ | ⟨_ | e, rest⟩ <;>
    simp only [World.updateStatus, World.nextFault, World.emit, hkey] at hu
  · simp only [] at hf
    rw [hf] at hu
    simp only [Prod.mk.injEq, true_and] at hu
    rw [← hu]
    exact findHpa_setStatus hp key h obj hf hns hname
  · simp only [] at hf
    rw [hf] at hu
    simp only [Prod.mk.injEq, true_and] at hu
    rw [← hu]
    exact findHpa_setStatus hp key h obj hf hns hname
  · simp at hu

theorem reconcile_fetched (parser : Parser) (now : Int) (req : NamespacedName) (w w1 : World)
    (cronhpa : Hpa) (hget : w.getHpa req = (.ok cronhpa, w1)) :
    Reconcile parser now req w =
      match reconcileJobs parser now cronhpa.Spec.Jobs cronhpa none w1 with
      | (.error err, w2) => ((Result.zero, some err), w2)
      | (.ok (cronhpa1, earliestNextRunTime), w2) =>
        match w2.updateStatus cronhpa1 with
        | (some err, w3) => ((Result.zero, some err), w3)
        | (none, w3) => ((requeueResult earliestNextRunTime now, none), w3) := by
  simp only [Reconcile, hget]

/-- A pass that fetched the resource and returned no error ran the loop to
its end and wrote the status. -/
theorem reconcile_success (parser : Parser) (now : Int) (req : NamespacedName) (w w1 : World)
    (cronhpa : Hpa) (hget : w.getHpa req = (.ok cronhpa, w1))
    (hok : (Reconcile parser now req w).1.2 = none) :
    ∃ cronhpa1 earliest1 w2 w3,
      reconcileJobs parser now cronhpa.Spec.Jobs cronhpa none w1 =
        (.ok (cronhpa1, earliest1), w2) ∧
      w2.updateStatus cronhpa1 = (none, w3) ∧
      Reconcile parser now req w = ((requeueResult earliest1 now, none), w3) := by
  rw [reconcile_fetched parser now req w w1 cronhpa hget] at hok ⊢
  rcases hloop : reconcileJobs parser now cronhpa.Spec.Jobs cronhpa none w1 with ⟨r, w2⟩
  rw [hloop] at hok
  cases r with
  | error err => simp at hok
  | ok pr =>
    obtain ⟨cronhpa1, earliest1⟩ := pr
    simp only [] at hok ⊢
    rcases hupd : w2.updateStatus cronhpa1 with ⟨r2, w3⟩
    rw [hupd] at hok
    cases r2 with
    | some err => simp at hok
    | none => exact ⟨cronhpa1, earliest1, w2, w3, rfl, hupd, rfl⟩

/-- When every schedule parses and no job is due, the loop returns normally,
changes nothing in memory and only logs. -/
theorem reconcileJobs_idle (parser : Parser) (now : Int) (cronhpa : Hpa) :
    ∀ (jobs : List JobSpec) (earliest : Option Int) (w : World),
      (∀ job ∈ jobs, ∃ next, parser job.Schedule = .ok next ∧
        now < next (indexRuntime cronhpa.Status.LastRuntimes job.Name)) →
      ∃ earliest1 new,
        reconcileJobs parser now jobs cronhpa earliest w =
          (.ok (cronhpa, earliest1), { w with events := w.events ++ new }) ∧
        ∀ e ∈ new, e.isJobInfo = true := by
  intro jobs
  induction jobs with
  | nil =>
    intro earliest w _
    exact ⟨earliest, [], by simp [reconcileJobs], by simp⟩
  | cons job rest ih =>
    intro earliest w hall
    obtain ⟨next, hp, hlt⟩ := hall job (List.mem_cons_self _ _)
    have hnd : ¬ (now > next (indexRuntime cronhpa.Status.LastRuntimes job.Name) ∨
        now = next (indexRuntime cronhpa.Status.LastRuntimes job.Name)) := by omega
    obtain ⟨e1, new, ih1, ih2⟩ := ih
      (foldEarliest earliest (next (indexRuntime cronhpa.Status.LastRuntimes job.Name)))
      (w.emit (.jobInfo job.Name (indexRuntime cronhpa.Status.LastRuntimes job.Name)
        (next (indexRuntime cronhpa.Status.LastRuntimes job.Name)) now))
      (fun j hj => hall j (List.mem_cons_of_mem _ hj))
    refine ⟨e1, .jobInfo job.Name (indexRuntime cronhpa.Status.LastRuntimes job.Name)
        (next (indexRuntime cronhpa.Status.LastRuntimes job.Name)) now :: new, ?_, ?_⟩
    · rw [reconcileJobs]
      simp only [getNextScheduledTime, hp]
      rw [if_neg hnd, ih1]
      simp [World.emit]
    · intro e he
      rcases List.mem_cons.mp he with he | he
      · subst he; rfl
      · exact ih2 e he

theorem updateDeployment_ok (w w1 : World) (key : NamespacedName) (d obj : Deployment)
    (hf : findDeployment w.deployments key = some d) (hns : obj.Namespace = key.Namespace)
    (hname : obj.Name = key.Name) (hu : w.updateDeployment obj = (none, w1)) :
    findDeployment w1.deployments key = some obj := by
  obtain ⟨hp, dp, fl, ev⟩ := w
  have hkey : (⟨obj.Namespace, obj.Name⟩ : NamespacedName) = key := by
    cases key; simp_all
  rcases fl with _ | ⟨_ | e, rest⟩ <;>
    simp only [World.updateDeployment, World.nextFault, World.emit, hkey] at hu
  · simp only [] at hf
    rw [hf] at hu
    simp only [Prod.mk.injEq, true_and] at hu
    rw [← hu]
    exact findDeployment_replace dp key d obj hf hns hname
  · simp only [] at hf
    rw [hf] at hu
    simp only [Prod.mk.injEq, true_and] at hu
    rw [← hu]
    exact findDeployment_replace dp key d obj hf hns hname
  · simp at hu

/-! ## The actuator is a no-op at the target size -/

/-- C8: when the deployment that `updateDeploymentReplicas` fetches has its
replica count set and equal to `job.Size`, the method returns the nil error,
its only call is the fetch, and the deployment store is as before; when the
count is unset or differs, the method issues, after the fetch, exactly one
update, of that deployment with its replica count set to `job.Size`, and when
the method then returns the nil error the store holds that deployment. -/
theorem updateDeploymentReplicas_noop_or_one_update (cronhpa : Hpa)
    (scaleTargetRef : ScaleTarget) (job : JobSpec) (w w1 : World) (deployment : Deployment)
    (hget : w.getDeployment ⟨cronhpa.Namespace, scaleTargetRef.Name⟩ = (.ok deployment, w1)) :
    (deployment.Replicas = some job.Size →
      updateDeploymentReplicas cronhpa scaleTargetRef job w = (none, w1) ∧
      w1.deployments = w.deployments ∧
      w1.events = w.events ++ [.getDeployment ⟨cronhpa.Namespace, scaleTargetRef.Name⟩]) ∧
    (deployment.Replicas ≠ some job.Size →
      (updateDeploymentReplicas cronhpa scaleTargetRef job w).2.events =
        w.events ++ [.getDeployment ⟨cronhpa.Namespace, scaleTargetRef.Name⟩,
          .updateDeployment { deployment with Replicas := some job.Size }] ∧
      ((updateDeploymentReplicas cronhpa scaleTargetRef job w).1 = none →
        findDeployment (updateDeploymentReplicas cronhpa scaleTargetRef job w).2.deployments
          ⟨cronhpa.Namespace, scaleTargetRef.Name⟩ =
            some { deployment with Replicas := some job.Size })) := by
  have hg := getDeployment_frame w ⟨cronhpa.Namespace, scaleTargetRef.Name⟩
  rw [hget] at hg
  obtain ⟨-, hg2, hg3⟩ := hg
  simp only [] at hg2 hg3
  have hfound := getDeployment_ok w w1 _ deployment hget
  have hkey := findDeployment_key _ _ _ hfound
  constructor
  · intro heq
    refine ⟨?_, hg2, hg3⟩
    simp only [updateDeploymentReplicas, hget, heq, if_true]
  · intro hne
    have hu := updateDeployment_frame w1 { deployment with Replicas := some job.Size }
    have hunfold : updateDeploymentReplicas cronhpa scaleTargetRef job w =
        match w1.updateDeployment { deployment with Replicas := some job.Size } with
        | (some err, w2) => (some (.wrap "failed to update deployment" err), w2)
        | (none, w2) => (none, w2) := by
      simp only [updateDeploymentReplicas, hget, hne, if_false]
    rw [hunfold]
    rcases hupd : w1.updateDeployment { deployment with Replicas := some job.Size } with ⟨r, w2⟩
    rw [hupd] at hu
    simp only [] at hu
    cases r with
    | some err =>
      refine ⟨?_, by simp⟩
      simp only [hu.2, hg3, List.append_assoc, List.singleton_append]
    | none =>
      refine ⟨?_, fun _ => ?_⟩
      · simp only [hu.2, hg3, List.append_assoc, List.singleton_append]
      · simp only []
        have hfound1 : findDeployment w1.deployments
            ⟨cronhpa.Namespace, scaleTargetRef.Name⟩ = some deployment := by
          rw [hg2]; exact hfound
        exact updateDeployment_ok w1 w2 _ deployment _ hfound1 hkey.1 hkey.2 hupd

/-- C8, on the example: the target deployment has one replica; a job of size
1 leaves it alone, a job of size 5 updates it once, to five replicas. -/
theorem updateDeploymentReplicas_noop_or_one_update_witness :
    updateDeploymentReplicas (exampleHpa [] ⟨0, none, none⟩) ⟨"apps/v1", "Deployment", "web"⟩
        ⟨"same", "* * * * *", 1⟩ (exampleWorld [] ⟨0, none, none⟩) =
      (none, (exampleWorld [] ⟨0, none, none⟩).emit (.getDeployment ⟨"default", "web"⟩)) ∧
    (updateDeploymentReplicas (exampleHpa [] ⟨0, none, none⟩) ⟨"apps/v1", "Deployment", "web"⟩
        ⟨"more", "* * * * *", 5⟩ (exampleWorld [] ⟨0, none, none⟩)).2.events =
      [.getDeployment ⟨"default", "web"⟩, .updateDeployment ⟨"default", "web", some 5⟩] :=
  ⟨((updateDeploymentReplicas_noop_or_one_update (exampleHpa [] ⟨0, none, none⟩)
      ⟨"apps/v1", "Deployment", "web"⟩ ⟨"same", "* * * * *", 1⟩
      (exampleWorld [] ⟨0, none, none⟩)
      ((exampleWorld [] ⟨0, none, none⟩).emit (.getDeployment ⟨"default", "web"⟩))
      ⟨"default", "web", some 1⟩ rfl).1 (by decide)).1,
   ((updateDeploymentReplicas_noop_or_one_update (exampleHpa [] ⟨0, none, none⟩)
      ⟨"apps/v1", "Deployment", "web"⟩ ⟨"more", "* * * * *", 5⟩
      (exampleWorld [] ⟨0, none, none⟩)
      ((exampleWorld [] ⟨0, none, none⟩).emit (.getDeployment ⟨"default", "web"⟩))
      ⟨"default", "web", some 1⟩ rfl).2 (by decide)).1⟩

/-! ## A pass writes nothing but the status -/

/-- C9: in every pass of `Reconcile`, failed or not, the stored resources keep
their namespace, name and spec (scale target and jobs), so that only status
fields can differ afterwards, and every object handed to the status write has
the namespace, name and spec of the resource that was fetched. -/
theorem reconcile_spec_frame (parser : Parser) (now : Int) (req : NamespacedName) (w : World) :
    (Reconcile parser now req w).2.hpas.map Hpa.frame = w.hpas.map Hpa.frame ∧
    ∃ new, (Reconcile parser now req w).2.events = w.events ++ new ∧
      ∀ obj, Event.updateStatus obj ∈ new →
        ∃ fetched, findHpa w.hpas req = some fetched ∧
          obj.Namespace = fetched.Namespace ∧ obj.Name = fetched.Name ∧
          obj.Spec.ScaleTarget = fetched.Spec.ScaleTarget ∧
          obj.Spec.Jobs = fetched.Spec.Jobs := by
  have hg := getHpa_frame w req
  rcases hget : w.getHpa req with ⟨r, w1⟩
  rw [hget] at hg
  obtain ⟨hg1, -, hg3⟩ := hg
  simp only [] at hg1 hg3
  cases r with
  | error err =>
    have hrec : (Reconcile parser now req w).2 = w1 := by
      simp only [Reconcile, hget]
      split <;> rfl
    rw [hrec, hg1]
    exact ⟨rfl, _, hg3, by simp⟩
  | ok cronhpa =>
    have hfound := getHpa_ok w w1 req cronhpa hget
    rw [reconcile_fetched parser now req w w1 cronhpa hget]
    have hfr := reconcileJobs_frame parser now cronhpa.Spec.Jobs cronhpa none w1
    rcases hloop : reconcileJobs parser now cronhpa.Spec.Jobs cronhpa none w1 with ⟨r, w2⟩
    rw [hloop] at hfr
    obtain ⟨hf1, new1, hf2, hf3⟩ := hfr
    simp only [] at hf1 hf2
    cases r with
    | error err =>
      simp only []
      rw [hf1, hg1]
      refine ⟨rfl, [.getHpa req] ++ new1, by rw [hf2, hg3, List.append_assoc], ?_⟩
      intro obj hobj
      rcases List.mem_append.mp hobj with h | h
      · simp at h
      · have := hf3 _ h
        simp [Event.isStatusWrite] at this
    | ok pr =>
      obtain ⟨cronhpa1, earliest1⟩ := pr
      obtain ⟨-, hc1, -, -⟩ := reconcileJobs_ok parser now _ _ _ _ _ _ _ hloop
      have hu := updateStatus_frame w2 cronhpa1
      have huf := updateStatus_hpas_frame w2 cronhpa1
      simp only []
      have hw3 : ∀ (res : Result × Option Err) (w3 : World),
          (match w2.updateStatus cronhpa1 with
            | (some err, w3) => ((Result.zero, some err), w3)
            | (none, w3) => ((requeueResult earliest1 now, none), w3)).2 =
          (w2.updateStatus cronhpa1).2 := by
        intro _ _
        rcases w2.updateStatus cronhpa1 with ⟨r2, w3⟩
        cases r2 <;> rfl
      rw [hw3 (Result.zero, none) w2, huf, hf1, hg1]
      refine ⟨rfl, [.getHpa req] ++ new1 ++ [.updateStatus cronhpa1], ?_, ?_⟩
      · rw [hu.2, hf2, hg3]; simp only [List.append_assoc]
      · intro obj hobj
        rcases List.mem_append.mp hobj with h | h
        · rcases List.mem_append.mp h with h | h
          · simp at h
          · have := hf3 _ h
            simp [Event.isStatusWrite] at this
        · simp only [List.mem_singleton, Event.updateStatus.injEq] at h
          subst h
          refine ⟨cronhpa, hfound, ?_⟩
          rw [hc1]
          exact ⟨rfl, rfl, rfl, rfl⟩

/-! ## Errors abort the pass before the status write -/

theorem updateDeploymentReplicas_error (cronhpa : Hpa) (target : ScaleTarget) (job : JobSpec)
    (w : World) (err : Err)
    (h : (updateDeploymentReplicas cronhpa target job w).1 = some err) :
    ∃ msg cause, err = .wrap msg cause := by
  simp only [updateDeploymentReplicas] at h
  rcases hget : w.getDeployment ⟨cronhpa.Namespace, target.Name⟩ with ⟨r, w1⟩
  rw [hget] at h
  cases r with
  | error e =>
    simp only [Option.some.injEq] at h
    exact ⟨_, _, h.symm⟩
  | ok deployment =>
    simp only [] at h
    split at h
    · simp at h
    · rcases hupd : w1.updateDeployment { deployment with Replicas := some job.Size } with ⟨r2, w2⟩
      rw [hupd] at h
      cases r2 with
      | none => simp at h
      | some e =>
        simp only [Option.some.injEq] at h
        exact ⟨_, _, h.symm⟩

/-- The two early returns of the loop: the error of the parser for one of the
jobs, or the wrapped error of the actuator. -/
theorem reconcileJobs_error (parser : Parser) (now : Int) :
    ∀ (jobs : List JobSpec) (cronhpa : Hpa) (earliest : Option Int) (w : World) (err : Err),
      (reconcileJobs parser now jobs cronhpa earliest w).1 = .error err →
      (∃ job ∈ jobs, parser job.Schedule = .error err) ∨ ∃ msg cause, err = .wrap msg cause := by
  intro jobs
  induction jobs with
  | nil =>
    intro cronhpa earliest w err h
    simp [reconcileJobs] at h
  | cons job rest ih =>
    intro cronhpa earliest w err h
    rw [reconcileJobs] at h
    cases hp : parser job.Schedule with
    | error e =>
      simp only [getNextScheduledTime, hp, Except.error.injEq] at h
      subst h
      exact Or.inl ⟨job, List.mem_cons_self _ _, hp⟩
    | ok next =>
      simp only [getNextScheduledTime, hp] at h
      have lift : ((∃ j ∈ rest, parser j.Schedule = .error err) ∨
          ∃ msg cause, err = .wrap msg cause) →
          (∃ j ∈ job :: rest, parser j.Schedule = .error err) ∨
          ∃ msg cause, err = .wrap msg cause := by
        rintro (⟨j, hj, hje⟩ | hw)
        · exact Or.inl ⟨j, List.mem_cons_of_mem _ hj, hje⟩
        · exact Or.inr hw
      split at h
      · rcases hupd : updateDeploymentReplicas cronhpa cronhpa.Spec.ScaleTarget job
          ((w.emit (.jobInfo job.Name (indexRuntime cronhpa.Status.LastRuntimes job.Name)
            (next (indexRuntime cronhpa.Status.LastRuntimes job.Name)) now)).emit
            (.updatingReplicas cronhpa.Spec.ScaleTarget.Name job.Size)) with ⟨r, w3⟩
        rw [hupd] at h
        cases r with
        | some e =>
          simp only [Except.error.injEq] at h
          subst h
          exact Or.inr (updateDeploymentReplicas_error _ _ _ _ _ (by rw [hupd]))
        | none => exact lift (ih _ _ _ _ h)
      · exact lift (ih _ _ _ _ h)

/-- C3: in a pass that fetched the resource, if the schedule of some job does
not parse, or the loop returns early with an error (the parser's, or the
wrapped error of the actuator called for a due job), then `Reconcile` returns
that kind of error with the zero result (no requeue delay), the pass contains
no status write, and the stored resources, status included, are exactly as
before the pass, whatever earlier jobs of the list were actuated. -/
theorem reconcile_error_atomic (parser : Parser) (now : Int) (req : NamespacedName)
    (w w1 : World) (cronhpa : Hpa) (hget : w.getHpa req = (.ok cronhpa, w1))
    (hfail : (∃ job ∈ cronhpa.Spec.Jobs, ∃ e, parser job.Schedule = .error e) ∨
      ∃ e, (reconcileJobs parser now cronhpa.Spec.Jobs cronhpa none w1).1 = .error e) :
    ∃ err, (Reconcile parser now req w).1 = (Result.zero, some err) ∧
      ((∃ job ∈ cronhpa.Spec.Jobs, parser job.Schedule = .error err) ∨
        ∃ msg cause, err = .wrap msg cause) ∧
      (Reconcile parser now req w).2.hpas = w.hpas ∧
      ∃ new, (Reconcile parser now req w).2.events = w.events ++ new ∧
        ∀ e ∈ new, e.isStatusWrite = false := by
  have hg := getHpa_frame w req
  rw [hget] at hg
  obtain ⟨hg1, -, hg3⟩ := hg
  simp only [] at hg1 hg3
  have hfr := reconcileJobs_frame parser now cronhpa.Spec.Jobs cronhpa none w1
  have herr : ∃ e, (reconcileJobs parser now cronhpa.Spec.Jobs cronhpa none w1).1 = .error e := by
    rcases hfail with ⟨job, hj, e, he⟩ | h
    · rcases hloop : reconcileJobs parser now cronhpa.Spec.Jobs cronhpa none w1 with ⟨r, w2⟩
      cases r with
      | error e1 => exact ⟨e1, rfl⟩
      | ok pr =>
        obtain ⟨c1, e1⟩ := pr
        obtain ⟨hparse, -⟩ := reconcileJobs_ok parser now _ _ _ _ _ _ _ hloop
        obtain ⟨next, hn⟩ := hparse job hj
        rw [he] at hn
        cases hn
    · exact h
  obtain ⟨err, herr⟩ := herr
  have hkind := reconcileJobs_error parser now _ _ _ _ _ herr
  rw [reconcile_fetched parser now req w w1 cronhpa hget]
  rcases hloop : reconcileJobs parser now cronhpa.Spec.Jobs cronhpa none w1 with ⟨r, w2⟩
  rw [hloop] at hfr herr
  simp only [] at herr
  subst herr
  obtain ⟨hf1, new1, hf2, hf3⟩ := hfr
  simp only [] at hf1 hf2 ⊢
  refine ⟨err, rfl, hkind, hf1.trans hg1, [.getHpa req] ++ new1,
    by rw [hf2, hg3, List.append_assoc], ?_⟩
  intro e he
  rcases List.mem_append.mp he with h | h
  · simp only [List.mem_singleton] at h
    subst h; rfl
  · exact hf3 e h

/-! ## No due job, no actuation -/

theorem actuations_none (l : List Event)
    (hl : ∀ e ∈ l, ∀ n sz, e ≠ .updatingReplicas n sz) : actuations l = [] := by
  induction l with
  | nil => rfl
  | cons x xs ih =>
    have hx := hl x (List.mem_cons_self _ _)
    have hxs := ih (fun e he => hl e (List.mem_cons_of_mem _ he))
    cases x <;> simp_all [actuations]

/-- The events of a pass without a due job contain no call to the deployment
store and announce no actuation. -/
theorem idle_events_quiet (req : NamespacedName) (infos : List Event) (cronhpa : Hpa)
    (hinfos : ∀ e ∈ infos, e.isJobInfo = true) :
    actuations ([.getHpa req] ++ infos ++ [.updateStatus cronhpa]) = [] ∧
    ∀ e ∈ [Event.getHpa req] ++ infos ++ [.updateStatus cronhpa],
      e.isDeploymentCall = false := by
  have hnoact : ∀ e ∈ [Event.getHpa req] ++ infos ++ [.updateStatus cronhpa],
      e.isDeploymentCall = false ∧ ∀ n sz, e ≠ .updatingReplicas n sz := by
    intro e he
    rcases List.mem_append.mp he with h | h
    · rcases List.mem_append.mp h with h | h
      · simp only [List.mem_singleton] at h
        subst h; exact ⟨rfl, by simp⟩
      · have := hinfos e h
        cases e <;> simp_all [Event.isJobInfo, Event.isDeploymentCall]
    · simp only [List.mem_singleton] at h
      subst h; exact ⟨rfl, by simp⟩
  exact ⟨actuations_none _ (fun e he => (hnoact e he).2), fun e he => (hnoact e he).1⟩

/-- A pass in which every schedule parses and no job is due: the fetch, one
"Job info" line per job and the status write of the fetched resource. -/
theorem reconcile_idle (parser : Parser) (now : Int) (req : NamespacedName)
    (w w1 : World) (cronhpa : Hpa) (hget : w.getHpa req = (.ok cronhpa, w1))
    (hnot : ∀ job ∈ cronhpa.Spec.Jobs, ∃ next, parser job.Schedule = .ok next ∧
      now < next (indexRuntime cronhpa.Status.LastRuntimes job.Name)) :
    ∃ infos r w3,
      (∀ e ∈ infos, e.isJobInfo = true) ∧
      World.updateStatus { w1 with events := w1.events ++ infos } cronhpa = (r, w3) ∧
      (Reconcile parser now req w).2 = w3 ∧
      ((Reconcile parser now req w).1.2 = none → r = none) := by
  obtain ⟨e1, infos, hloop, hinfos⟩ :=
    reconcileJobs_idle parser now cronhpa cronhpa.Spec.Jobs none w1 hnot
  rw [reconcile_fetched parser now req w w1 cronhpa hget, hloop]
  simp only []
  rcases hupd : World.updateStatus { w1 with events := w1.events ++ infos } cronhpa with ⟨r, w3⟩
  refine ⟨infos, r, w3, hinfos, hupd, ?_, ?_⟩
  · cases r <;> rfl
  · cases r with
    | none => intro _; rfl
    | some err => intro h; simp at h

/-- C4: in a pass that fetched the resource, if every schedule parses and the
next fire time of every job, computed from its recorded last run (the zero
time when there is none), is strictly after `now`, then the pass consists of
the fetch, one "Job info" line per job and the status write, so it contains no
call to the deployment store and announces no actuation; the deployments are
untouched; the object handed to the status write is the fetched resource; and
when the pass returns no error the stored resource is the fetched one. -/
theorem reconcile_no_due_no_actuation (parser : Parser) (now : Int) (req : NamespacedName)
    (w w1 : World) (cronhpa : Hpa) (hget : w.getHpa req = (.ok cronhpa, w1))
    (hnot : ∀ job ∈ cronhpa.Spec.Jobs, ∃ next, parser job.Schedule = .ok next ∧
      now < next (indexRuntime cronhpa.Status.LastRuntimes job.Name)) :
    (Reconcile parser now req w).2.deployments = w.deployments ∧
    (∃ infos, (Reconcile parser now req w).2.events =
        w.events ++ ([.getHpa req] ++ infos ++ [.updateStatus cronhpa]) ∧
      (∀ e ∈ infos, e.isJobInfo = true) ∧
      actuations ([.getHpa req] ++ infos ++ [.updateStatus cronhpa]) = [] ∧
      ∀ e ∈ [Event.getHpa req] ++ infos ++ [.updateStatus cronhpa],
        e.isDeploymentCall = false) ∧
    ((Reconcile parser now req w).1.2 = none →
      findHpa (Reconcile parser now req w).2.hpas req = some cronhpa) := by
  have hg := getHpa_frame w req
  rw [hget] at hg
  obtain ⟨hg1, hg2, hg3⟩ := hg
  simp only [] at hg1 hg2 hg3
  have hfound := getHpa_ok w w1 req cronhpa hget
  have hkey := findHpa_key _ _ _ hfound
  obtain ⟨infos, r, w3, hinfos, hupd, hworld, hres⟩ :=
    reconcile_idle parser now req w w1 cronhpa hget hnot
  have hu := updateStatus_frame { w1 with events := w1.events ++ infos } cronhpa
  rw [hupd] at hu
  simp only [] at hu
  obtain ⟨hquiet1, hquiet2⟩ := idle_events_quiet req infos cronhpa hinfos
  rw [hworld]
  refine ⟨by rw [hu.1, hg2], ⟨infos, ?_, hinfos, hquiet1, hquiet2⟩, fun hok => ?_⟩
  · rw [hu.2, hg3]; simp only [List.append_assoc]
  · have hr := hres hok
    subst hr
    have hfound1 : findHpa (World.hpas { w1 with events := w1.events ++ infos }) req =
        some cronhpa := by
      simp only []; rw [hg1]; exact hfound
    exact updateStatus_ok _ w3 req cronhpa cronhpa hfound1 hkey.1 hkey.2 hupd

/-- C4, on scenario B: thirty seconds after the recorded run the job is not
due; the pass leaves the deployment at one replica and the stored resource as
it was. -/
theorem reconcile_no_due_no_actuation_witness :
    (Reconcile exampleParser (monday0900 + 30 * Second) exampleKey scenarioB).2.deployments =
      [⟨"default", "web", some 1⟩] ∧
    findHpa (Reconcile exampleParser (monday0900 + 30 * Second) exampleKey scenarioB).2.hpas
      exampleKey = some (exampleHpa [⟨"scale-up", "0 9 * * 1-5", 10⟩]
        ⟨10, some monday0900, some [("scale-up", monday0900)]⟩) :=
  have h := reconcile_no_due_no_actuation exampleParser (monday0900 + 30 * Second) exampleKey
    scenarioB (scenarioB.emit (.getHpa exampleKey))
    (exampleHpa [⟨"scale-up", "0 9 * * 1-5", 10⟩]
      ⟨10, some monday0900, some [("scale-up", monday0900)]⟩) rfl
    (by
      intro job hj
      simp only [exampleHpa, List.mem_singleton] at hj
      subst hj
      exact ⟨weekdaysAtNine, rfl, by decide⟩)
  ⟨h.1, h.2.2 (by decide)⟩

/-- C3, on scenario D: the first job is due and actuated (the deployment goes
to three replicas), the schedule of the second does not parse; the stored
resources are as before the pass. -/
theorem reconcile_error_atomic_witness :
    (Reconcile exampleParser monday0900 exampleKey scenarioD).2.hpas = scenarioD.hpas ∧
    (Reconcile exampleParser monday0900 exampleKey scenarioD).2.deployments =
      [⟨"default", "web", some 3⟩] :=
  have h := reconcile_error_atomic exampleParser monday0900 exampleKey scenarioD
    (scenarioD.emit (.getHpa exampleKey))
    (exampleHpa [⟨"jobA", "* * * * *", 3⟩, ⟨"bad", "99 * * *", 7⟩] ⟨0, none, none⟩) rfl
    (Or.inl ⟨⟨"bad", "99 * * *", 7⟩, by simp [exampleHpa], .parse "99 * * *", rfl⟩)
  ⟨h.elim (fun _ hc => hc.2.2.1), by decide⟩

/-! ## A pass that returns no error -/

/-- A pass that fetched the resource and returned no error, in terms of the
decisions of `planJobs`: every schedule parsed, the result is computed from
the planned earliest time, the stored resource carries the planned status,
and the announced actuations are those of the jobs that fired. -/
theorem reconcile_plan (parser : Parser) (now : Int) (req : NamespacedName) (w w1 : World)
    (cronhpa : Hpa) (hget : w.getHpa req = (.ok cronhpa, w1))
    (hok : (Reconcile parser now req w).1.2 = none) :
    (∀ job ∈ cronhpa.Spec.Jobs, ∃ next, parser job.Schedule = .ok next) ∧
    (∃ w2, reconcileJobs parser now cronhpa.Spec.Jobs cronhpa none w1 =
      (.ok ({ cronhpa with
          Status := (planJobs parser now cronhpa.Spec.Jobs cronhpa.Status none).1 },
        (planJobs parser now cronhpa.Spec.Jobs cronhpa.Status none).2.1), w2)) ∧
    (Reconcile parser now req w).1 =
      (requeueResult (planJobs parser now cronhpa.Spec.Jobs cronhpa.Status none).2.1 now,
        none) ∧
    findHpa (Reconcile parser now req w).2.hpas req = some { cronhpa with
      Status := (planJobs parser now cronhpa.Spec.Jobs cronhpa.Status none).1 } ∧
    ∃ new, (Reconcile parser now req w).2.events = w.events ++ new ∧
      actuations new = (planJobs parser now cronhpa.Spec.Jobs cronhpa.Status none).2.2.map
        (fun j => (cronhpa.Spec.ScaleTarget.Name, j.Size)) := by
  have hg := getHpa_frame w req
  rw [hget] at hg
  obtain ⟨hg1, -, hg3⟩ := hg
  simp only [] at hg1 hg3
  have hfound := getHpa_ok w w1 req cronhpa hget
  have hkey := findHpa_key _ _ _ hfound
  obtain ⟨c1, e1, w2, w3, hloop, hupd, hrec⟩ :=
    reconcile_success parser now req w w1 cronhpa hget hok
  obtain ⟨hparse, hc1, he1, new1, hev1, hact1⟩ :=
    reconcileJobs_ok parser now _ _ _ _ _ _ _ hloop
  have hfr := reconcileJobs_frame parser now cronhpa.Spec.Jobs cronhpa none w1
  rw [hloop] at hfr
  have hu := updateStatus_frame w2 c1
  rw [hupd] at hu
  simp only [] at hu
  have hfound2 : findHpa w2.hpas req = some cronhpa := by
    rw [hfr.1, hg1]; exact hfound
  have hc1key : c1.Namespace = req.Namespace ∧ c1.Name = req.Name := by
    rw [hc1]; exact hkey
  have hstored := updateStatus_ok w2 w3 req cronhpa c1 hfound2 hc1key.1 hc1key.2 hupd
  rw [hrec]
  refine ⟨hparse, ⟨w2, by rw [hloop, hc1, he1]⟩, by rw [he1], ?_, ?_⟩
  · simp only []
    rw [hstored, hc1]
  · refine ⟨[.getHpa req] ++ new1 ++ [.updateStatus c1], ?_, ?_⟩
    · simp only []
      rw [hu.2, hev1, hg3]; simp only [List.append_assoc]
    · rw [actuations_append, actuations_append, hact1]
      simp [actuations]

theorem isDue_iff (parser : Parser) (now : Int) (status : HpaStatus) (job : JobSpec) :
    isDue parser now status job = true ↔ nextScheduled parser status job ≤ now := by
  simp [isDue]

/-! ## Last writer wins -/

/-- C5: in a pass that fetched the resource and returned no error, and in
which at least one job is due, the actuations announced are those of the jobs
the loop found due, in the order of the spec, each with the target name and
the size of its job; the stored status afterwards has `CurrentReplicas` equal
to the size of the last of these jobs and `LastScaleTime` equal to `now`; and
when the job names are distinct these jobs are the jobs of the list whose next
scheduled time, from the fetched status, is at or before `now`. -/
theorem reconcile_last_writer_wins (parser : Parser) (now : Int) (req : NamespacedName)
    (w w1 : World) (cronhpa : Hpa) (hget : w.getHpa req = (.ok cronhpa, w1))
    (hok : (Reconcile parser now req w).1.2 = none)
    (hdue : ∃ job ∈ cronhpa.Spec.Jobs, nextScheduled parser cronhpa.Status job ≤ now) :
    ∃ fired last final new,
      fired = (planJobs parser now cronhpa.Spec.Jobs cronhpa.Status none).2.2 ∧
      ((cronhpa.Spec.Jobs.map JobSpec.Name).Nodup →
        fired = cronhpa.Spec.Jobs.filter
          (fun j => decide (nextScheduled parser cronhpa.Status j ≤ now))) ∧
      (Reconcile parser now req w).2.events = w.events ++ new ∧
      actuations new = fired.map (fun j => (cronhpa.Spec.ScaleTarget.Name, j.Size)) ∧
      fired.getLast? = some last ∧
      findHpa (Reconcile parser now req w).2.hpas req = some final ∧
      final.Status.CurrentReplicas = last.Size ∧
      final.Status.LastScaleTime = some now := by
  obtain ⟨-, -, -, hstored, new, hev, hact⟩ := reconcile_plan parser now req w w1 cronhpa hget hok
  obtain ⟨job, hj, hjd⟩ := hdue
  have hne : (planJobs parser now cronhpa.Spec.Jobs cronhpa.Status none).2.2 ≠ [] := by
    intro hnil
    have := planJobs_unfired parser now cronhpa.Spec.Jobs cronhpa.Status none job hj
      (by rw [hnil]; simp)
    rw [(isDue_iff parser now cronhpa.Status job).mpr hjd] at this
    cases this
  obtain ⟨last, hlast⟩ : ∃ last,
      (planJobs parser now cronhpa.Spec.Jobs cronhpa.Status none).2.2.getLast? = some last :=
    ⟨_, List.getLast?_eq_getLast _ hne⟩
  obtain ⟨-, h2, -⟩ := planJobs_status parser now cronhpa.Spec.Jobs cronhpa.Status none
  obtain ⟨hcr, hlst⟩ := h2 last hlast
  refine ⟨_, last, _, new, rfl, ?_, hev, hact, hlast, hstored, hcr, hlst⟩
  intro hnames
  exact (planJobs_nodup parser now cronhpa.Status cronhpa.Spec.Jobs
    cronhpa.Status none hnames (fun _ _ => rfl)).1

/-- C5, on scenario C: both jobs are due at Monday 09:00:00; the actuator is
announced for size 3 and then for size 7, and the stored status ends with
seven replicas. -/
theorem reconcile_last_writer_wins_witness :
    actuations (Reconcile exampleParser monday0900 exampleKey scenarioC).2.events =
      [("web", 3), ("web", 7)] ∧
    (findHpa (Reconcile exampleParser monday0900 exampleKey scenarioC).2.hpas exampleKey).map
      (fun h => (h.Status.CurrentReplicas, h.Status.LastScaleTime)) =
        some (7, some monday0900) :=
  have h := reconcile_last_writer_wins exampleParser monday0900 exampleKey scenarioC
    (scenarioC.emit (.getHpa exampleKey))
    (exampleHpa [⟨"jobA", "* * * * *", 3⟩, ⟨"jobB", "0 * * * *", 7⟩] ⟨0, none, none⟩) rfl
    (by decide)
    ⟨⟨"jobA", "* * * * *", 3⟩, by simp [exampleHpa], by decide⟩
  by
    obtain ⟨fired, last, final, new, -, hnodup, hev, hact, hlast, hfinal, hcr, hlst⟩ := h
    have hfired := hnodup (by decide)
    have hf : fired = [⟨"jobA", "* * * * *", 3⟩, ⟨"jobB", "0 * * * *", 7⟩] := by
      rw [hfired]; decide
    subst hf
    have hl : last = ⟨"jobB", "0 * * * *", 7⟩ := by
      have hs : (some last : Option JobSpec) = some ⟨"jobB", "0 * * * *", 7⟩ := by
        rw [← hlast]; rfl
      exact Option.some.inj hs
    constructor
    · rw [hev, actuations_append, hact]
      decide
    · rw [hfinal, Option.map_some', hcr, hlst, hl]

/-! ## The recorded run of each job -/

/-- C6: in a pass over jobs with distinct names that fetched the resource and
returned no error, the stored `LastRuntimes` afterwards maps the name of every
job that was due (next scheduled time at or before `now`) to `now`, and has at
every key that is not the name of a due job the entry, or the absence of one,
that it had before; and a job without an entry is judged from the zero time. -/
theorem reconcile_records_runs (parser : Parser) (now : Int) (req : NamespacedName)
    (w w1 : World) (cronhpa : Hpa) (hget : w.getHpa req = (.ok cronhpa, w1))
    (hnames : (cronhpa.Spec.Jobs.map JobSpec.Name).Nodup)
    (hok : (Reconcile parser now req w).1.2 = none) :
    (∃ final, findHpa (Reconcile parser now req w).2.hpas req = some final ∧
      (∀ job ∈ cronhpa.Spec.Jobs, nextScheduled parser cronhpa.Status job ≤ now →
        lookupRuntime final.Status.LastRuntimes job.Name = some now) ∧
      (∀ k, (∀ job ∈ cronhpa.Spec.Jobs, job.Name = k →
          ¬ nextScheduled parser cronhpa.Status job ≤ now) →
        lookupRuntime final.Status.LastRuntimes k =
          lookupRuntime cronhpa.Status.LastRuntimes k)) ∧
    ∀ job, lookupRuntime cronhpa.Status.LastRuntimes job.Name = none →
      nextScheduled parser cronhpa.Status job =
        (getNextScheduledTime parser job.Schedule 0).1 := by
  obtain ⟨-, -, -, hstored, -⟩ := reconcile_plan parser now req w w1 cronhpa hget hok
  obtain ⟨hfired, -⟩ := planJobs_nodup parser now cronhpa.Status cronhpa.Spec.Jobs
    cronhpa.Status none hnames (fun _ _ => rfl)
  obtain ⟨-, -, h3⟩ := planJobs_status parser now cronhpa.Spec.Jobs cronhpa.Status none
  refine ⟨⟨_, hstored, ?_, ?_⟩, ?_⟩
  · intro job hj hd
    have := h3 job.Name
    simp only [] at this ⊢
    rw [this, hfired, if_pos]
    exact List.mem_map_of_mem _ (List.mem_filter.mpr ⟨hj, (isDue_iff _ _ _ _).mpr hd⟩)
  · intro k hk
    have := h3 k
    simp only [] at this ⊢
    rw [this, hfired, if_neg]
    intro hmem
    obtain ⟨job, hjm, hjn⟩ := List.mem_map.mp hmem
    obtain ⟨hj, hd⟩ := List.mem_filter.mp hjm
    exact hk job hj hjn ((isDue_iff _ _ _ _).mp hd)
  · intro job hnone
    simp only [nextScheduled, indexRuntime, hnone]

/-- C6, on scenario A: the job has never run and is judged from the zero
time; it is due at Monday 09:00:00, and the pass records that instant as its
last run. -/
theorem reconcile_records_runs_witness :
    (findHpa (Reconcile exampleParser monday0900 exampleKey scenarioA).2.hpas exampleKey).map
      (fun h => lookupRuntime h.Status.LastRuntimes "scale-up") = some (some monday0900) ∧
    nextScheduled exampleParser ⟨0, none, none⟩ ⟨"scale-up", "0 9 * * 1-5", 10⟩ =
      weekdaysAtNine 0 :=
  have h := reconcile_records_runs exampleParser monday0900 exampleKey scenarioA
    (scenarioA.emit (.getHpa exampleKey))
    (exampleHpa [⟨"scale-up", "0 9 * * 1-5", 10⟩] ⟨0, none, none⟩) rfl
    (by decide) (by decide)
  ⟨by
    obtain ⟨final, hfinal, hdue, -⟩ := h.1
    rw [hfinal, Option.map_some']
    exact congrArg some (hdue ⟨"scale-up", "0 9 * * 1-5", 10⟩ (by simp [exampleHpa])
      (by decide)),
   h.2 ⟨"scale-up", "0 9 * * 1-5", 10⟩ rfl⟩

/-! ## The earliest next run time is a minimum -/

theorem foldEarliest_foldl_none (l : List Int) :
    l.foldl foldEarliest none = none ↔ l = [] := by
  cases l with
  | nil => simp
  | cons x rest =>
    simp only [List.foldl_cons, foldEarliest]
    obtain ⟨m, hm⟩ := foldEarliest_foldl_some rest x
    simp [hm]

/-- The result of the fold over a list is determined by the members of the
list. -/
theorem foldEarliest_foldl_perm (l1 l2 : List Int) (h : ∀ x, x ∈ l1 ↔ x ∈ l2) :
    l1.foldl foldEarliest none = l2.foldl foldEarliest none := by
  cases h1 : l1.foldl foldEarliest none with
  | none =>
    have hl1 := (foldEarliest_foldl_none l1).mp h1
    subst hl1
    have hl2 : l2 = [] := by
      cases l2 with
      | nil => rfl
      | cons x rest => exact absurd ((h x).mpr (List.mem_cons_self _ _)) (by simp)
    rw [hl2]; rfl
  | some m1 =>
    cases h2 : l2.foldl foldEarliest none with
    | none =>
      have hl2 := (foldEarliest_foldl_none l2).mp h2
      subst hl2
      have hl1 : l1 = [] := by
        cases l1 with
        | nil => rfl
        | cons x rest => exact absurd ((h x).mp (List.mem_cons_self _ _)) (by simp)
      rw [hl1] at h1
      simp at h1
    | some m2 =>
      obtain ⟨ha1, hb1, -⟩ := foldEarliest_foldl_min l1 none m1 h1
      obtain ⟨ha2, hb2, -⟩ := foldEarliest_foldl_min l2 none m2 h2
      have hm1 : m1 ∈ l1 := by
        rcases ha1 with h | h
        · exact h
        · cases h
      have hm2 : m2 ∈ l2 := by
        rcases ha2 with h | h
        · exact h
        · cases h
      have h12 := hb1 m2 ((h m2).mpr hm2)
      have h21 := hb2 m1 ((h m1).mp hm1)
      congr 1
      omega

theorem planJobs_earliest (parser : Parser) (now : Int) :
    ∀ (jobs : List JobSpec) (status : HpaStatus) (earliest : Option Int),
      (planJobs parser now jobs status earliest).2.1 =
        (planCandidates parser now jobs status).foldl foldEarliest earliest := by
  intro jobs
  induction jobs with
  | nil => intro status earliest; rfl
  | cons job rest ih =>
    intro status earliest
    by_cases hd : isDue parser now status job = true
    · rw [planJobs_due parser now job rest status earliest hd, planCandidates, if_pos hd,
        List.foldl_cons]
      exact ih _ _
    · rw [planJobs_notDue parser now job rest status earliest hd, planCandidates, if_neg hd,
        List.foldl_cons]
      exact ih _ _

theorem planCandidates_nodup (parser : Parser) (now : Int) (status0 : HpaStatus) :
    ∀ (jobs : List JobSpec) (status : HpaStatus),
      (jobs.map JobSpec.Name).Nodup →
      (∀ j ∈ jobs, indexRuntime status.LastRuntimes j.Name =
        indexRuntime status0.LastRuntimes j.Name) →
      planCandidates parser now jobs status = jobs.map (candidate parser now status0) := by
  intro jobs
  induction jobs with
  | nil => intro _ _ _; rfl
  | cons job rest ih =>
    intro status hnd hidx
    rw [List.map_cons, List.nodup_cons] at hnd
    rw [planCandidates, List.map_cons,
      candidate_congr parser now status status0 job (hidx job (List.mem_cons_self _ _))]
    congr 1
    apply ih _ hnd.2
    intro j hj
    have hne : j.Name ≠ job.Name := by
      intro hc
      exact hnd.1 (hc ▸ List.mem_map_of_mem JobSpec.Name hj)
    split
    · rw [index_recordRun, if_neg hne]
      exact hidx j (List.mem_cons_of_mem _ hj)
    · exact hidx j (List.mem_cons_of_mem _ hj)

/-- C7: in a pass that fetched the resource and returned no error, the loop
ends with an `earliestNextRunTime` from which the result is computed and which
is the minimum of the candidates the jobs propose in the pass (the next fire
time after `now` for a due job, the next scheduled time after its last run
for a job that is not due): it is one of them and at most each of them; it is
nil exactly when there is no job, in which case the zero result (no requeue
delay) is returned; and when the job names are distinct, the candidates are
those computed from the fetched status, job by job, and the loop over any
reordering of the jobs ends with the same value. -/
theorem reconcile_earliest_is_minimum (parser : Parser) (now : Int) (req : NamespacedName)
    (w w1 : World) (cronhpa : Hpa) (hget : w.getHpa req = (.ok cronhpa, w1))
    (hok : (Reconcile parser now req w).1.2 = none) :
    ∃ cronhpa1 earliest w2,
      reconcileJobs parser now cronhpa.Spec.Jobs cronhpa none w1 =
        (.ok (cronhpa1, earliest), w2) ∧
      (Reconcile parser now req w).1.1 = requeueResult earliest now ∧
      (∀ e, earliest = some e →
        e ∈ planCandidates parser now cronhpa.Spec.Jobs cronhpa.Status ∧
        ∀ c ∈ planCandidates parser now cronhpa.Spec.Jobs cronhpa.Status, e ≤ c) ∧
      (earliest = none ↔ cronhpa.Spec.Jobs = []) ∧
      (cronhpa.Spec.Jobs = [] → (Reconcile parser now req w).1.1 = Result.zero) ∧
      ((cronhpa.Spec.Jobs.map JobSpec.Name).Nodup →
        planCandidates parser now cronhpa.Spec.Jobs cronhpa.Status =
          cronhpa.Spec.Jobs.map (candidate parser now cronhpa.Status) ∧
        ∀ (jobs2 : List JobSpec) (wB wB2 : World) (cronhpaB : Hpa) (earliestB : Option Int),
          jobs2.Perm cronhpa.Spec.Jobs →
          reconcileJobs parser now jobs2
            { cronhpa with Spec := { cronhpa.Spec with Jobs := jobs2 } } none wB =
              (.ok (cronhpaB, earliestB), wB2) →
          earliestB = earliest) := by
  obtain ⟨-, ⟨w2, hloop⟩, hres, -, -⟩ := reconcile_plan parser now req w w1 cronhpa hget hok
  have hearliest := planJobs_earliest parser now cronhpa.Spec.Jobs cronhpa.Status none
  refine ⟨_, _, w2, hloop, by rw [hres], ?_, ?_, ?_, ?_⟩
  · intro e he
    rw [hearliest] at he
    obtain ⟨ha, hb, -⟩ := foldEarliest_foldl_min _ none e he
    refine ⟨?_, hb⟩
    rcases ha with h | h
    · exact h
    · cases h
  · rw [hearliest, foldEarliest_foldl_none]
    cases cronhpa.Spec.Jobs with
    | nil => simp [planCandidates]
    | cons job rest => simp [planCandidates]
  · intro hnil
    rw [hres]
    simp only [hnil, planJobs, requeueResult]
  · intro hnames
    have hcand := planCandidates_nodup parser now cronhpa.Status cronhpa.Spec.Jobs
      cronhpa.Status hnames (fun _ _ => rfl)
    refine ⟨hcand, ?_⟩
    intro jobs2 wB wB2 cronhpaB earliestB hperm hloopB
    obtain ⟨-, -, heB, -⟩ := reconcileJobs_ok parser now _ _ _ _ _ _ _ hloopB
    simp only [] at heB
    have hnamesB : (jobs2.map JobSpec.Name).Nodup :=
      (List.Perm.nodup_iff (hperm.map JobSpec.Name)).mpr hnames
    have hcandB := planCandidates_nodup parser now cronhpa.Status jobs2
      cronhpa.Status hnamesB (fun _ _ => rfl)
    rw [heB, planJobs_earliest, hcandB, hearliest, hcand]
    apply foldEarliest_foldl_perm
    intro x
    exact (hperm.map (candidate parser now cronhpa.Status)).mem_iff

/-- C7, on scenario C: after both jobs fired at Monday 09:00:00 the earliest
next run time is 09:01:00, the candidate of the job that fires every minute,
and the pass asks to be run again in one minute. -/
theorem reconcile_earliest_is_minimum_witness :
    (reconcileJobs exampleParser monday0900
        [⟨"jobA", "* * * * *", 3⟩, ⟨"jobB", "0 * * * *", 7⟩]
        (exampleHpa [⟨"jobA", "* * * * *", 3⟩, ⟨"jobB", "0 * * * *", 7⟩] ⟨0, none, none⟩)
        none (scenarioC.emit (.getHpa exampleKey))).1.toOption.map Prod.snd =
      some (some (monday0900 + 60 * Second)) ∧
    (Reconcile exampleParser monday0900 exampleKey scenarioC).1.1 = ⟨false, 60 * Second⟩ :=
  have h := reconcile_earliest_is_minimum exampleParser monday0900 exampleKey scenarioC
    (scenarioC.emit (.getHpa exampleKey))
    (exampleHpa [⟨"jobA", "* * * * *", 3⟩, ⟨"jobB", "0 * * * *", 7⟩] ⟨0, none, none⟩) rfl
    (by decide)
  ⟨by
    obtain ⟨c1, e1, w2, hloop, -⟩ := h
    have hl : reconcileJobs exampleParser monday0900
        [⟨"jobA", "* * * * *", 3⟩, ⟨"jobB", "0 * * * *", 7⟩]
        (exampleHpa [⟨"jobA", "* * * * *", 3⟩, ⟨"jobB", "0 * * * *", 7⟩] ⟨0, none, none⟩)
        none (scenarioC.emit (.getHpa exampleKey)) = (.ok (c1, e1), w2) := hloop
    rw [hl]
    have he : e1 = some (monday0900 + 60 * Second) := by
      have := congrArg (fun r => r.1.toOption.map Prod.snd) hl
      simp only [Except.toOption, Option.map_some'] at this
      rw [← Option.some.inj this]
      decide
    rw [he]; rfl,
   by decide⟩

/-! ## The requeue delay -/

theorem sub_neg_iff (e now : Int) : Time.Sub e now < 0 ↔ e < now := by
  unfold Time.Sub minDuration maxDuration
  split
  · omega
  · split <;> omega

theorem sub_exact (e now : Int) (h1 : now ≤ e) (h2 : e - now ≤ maxDuration) :
    Time.Sub e now = e - now := by
  unfold Time.Sub
  unfold maxDuration at h2
  unfold minDuration maxDuration
  split
  · omega
  · split <;> omega

theorem requeueResult_some (e now : Int) :
    (requeueResult (some e) now).RequeueAfter =
      if e < now then Second else Time.Sub e now := by
  simp only [requeueResult]
  by_cases h : e < now
  · rw [if_pos ((sub_neg_iff e now).mpr h), if_pos h]
  · rw [if_neg (fun hc => h ((sub_neg_iff e now).mp hc)), if_neg h]

/-- C1, refuted as stated: in scenario `scenarioTick` half a second before
09:00:00 the job is not due, its next scheduled time is 09:00:00, and the
pass, which has one job and returns no error, asks to be run again after half
a second, less than one second. -/
theorem requeue_floor_counterexample :
    (exampleHpa [⟨"tick", "* * * * *", 2⟩]
      ⟨2, some (monday0900 - 30 * Second),
        some [("tick", monday0900 - 30 * Second)]⟩).Spec.Jobs ≠ [] ∧
    (Reconcile exampleParser (monday0900 - 500000000) exampleKey scenarioTick).1 =
      (⟨false, 500000000⟩, none) ∧
    ¬ (Second ≤
      (Reconcile exampleParser (monday0900 - 500000000) exampleKey scenarioTick).1.1.RequeueAfter) := by
  decide

/-- C1, amended: in a pass that fetched a resource with at least one job and
returned no error, the loop ends with some `earliestNextRunTime` `e`, and the
requeue delay is one second when `e` is before `now` and the saturated
difference `e - now` otherwise; so the delay is never negative, and it is at
least one second when `e` is before `now` or at least one second after it. -/
theorem reconcile_requeue_delay (parser : Parser) (now : Int) (req : NamespacedName)
    (w w1 : World) (cronhpa : Hpa) (hget : w.getHpa req = (.ok cronhpa, w1))
    (hok : (Reconcile parser now req w).1.2 = none)
    (hjobs : cronhpa.Spec.Jobs ≠ []) :
    ∃ cronhpa1 e w2,
      reconcileJobs parser now cronhpa.Spec.Jobs cronhpa none w1 =
        (.ok (cronhpa1, some e), w2) ∧
      (Reconcile parser now req w).1.1.RequeueAfter =
        (if e < now then Second else Time.Sub e now) ∧
      0 ≤ (Reconcile parser now req w).1.1.RequeueAfter ∧
      (e < now ∨ now + Second ≤ e → Second ≤ (Reconcile parser now req w).1.1.RequeueAfter) := by
  obtain ⟨-, ⟨w2, hloop⟩, hres, -, -⟩ := reconcile_plan parser now req w w1 cronhpa hget hok
  obtain ⟨job, rest, hjr⟩ := List.exists_cons_of_ne_nil hjobs
  obtain ⟨e, he⟩ := planJobs_earliest_some parser now job rest cronhpa.Status none
  rw [← hjr] at he
  rw [he] at hloop hres
  have hdelay : (Reconcile parser now req w).1.1.RequeueAfter =
      (if e < now then Second else Time.Sub e now) := by
    rw [hres]; exact requeueResult_some e now
  refine ⟨_, e, w2, hloop, hdelay, ?_, ?_⟩
  · rw [hdelay]
    split
    · decide
    · next h =>
      have := (sub_neg_iff e now).not.mpr h
      omega
  · intro h
    rw [hdelay]
    split
    · exact le_refl _
    · next hlt =>
      have hle : now + Second ≤ e := by
        rcases h with h | h
        · exact absurd h hlt
        · exact h
      unfold Time.Sub minDuration maxDuration
      unfold Second at hle ⊢
      split
      · omega
      · split <;> omega

/-- C1, amended, on scenario A: the job fires at Monday 09:00:00, its next
fire time is Tuesday 09:00:00, and the delay is twenty-four hours. -/
theorem reconcile_requeue_delay_witness :
    (Reconcile exampleParser monday0900 exampleKey scenarioA).1.1.RequeueAfter =
      86400 * Second :=
  have h := reconcile_requeue_delay exampleParser monday0900 exampleKey scenarioA
    (scenarioA.emit (.getHpa exampleKey))
    (exampleHpa [⟨"scale-up", "0 9 * * 1-5", 10⟩] ⟨0, none, none⟩) rfl
    (by decide) (by decide)
  h.elim (fun _ _ => by decide)

/-! ## The floor branch under the evaluator's contract -/

/-- C10: when the result of every parsed schedule is strictly after its
argument, a pass that fetched a resource with at least one job and returned
no error ends its loop with an `earliestNextRunTime` `e` strictly after `now`;
the test `requeueAfter < 0` fails, the delay returned is the saturated
difference `e - now` (the difference itself when it fits a duration) and is
strictly positive; and `getNextScheduledTime` returns the nil error at `now`
for the schedule of every job, so the error dropped in the due branch is
nil. -/
theorem reconcile_floor_unreachable (parser : Parser) (now : Int) (req : NamespacedName)
    (w w1 : World) (cronhpa : Hpa) (hstrict : StrictlyAfter parser)
    (hget : w.getHpa req = (.ok cronhpa, w1))
    (hok : (Reconcile parser now req w).1.2 = none)
    (hjobs : cronhpa.Spec.Jobs ≠ []) :
    (∃ cronhpa1 e w2,
      reconcileJobs parser now cronhpa.Spec.Jobs cronhpa none w1 =
        (.ok (cronhpa1, some e), w2) ∧
      now < e ∧
      ¬ (Time.Sub e now < 0) ∧
      (Reconcile parser now req w).1.1.RequeueAfter = Time.Sub e now ∧
      0 < (Reconcile parser now req w).1.1.RequeueAfter ∧
      (e - now ≤ maxDuration → (Reconcile parser now req w).1.1.RequeueAfter = e - now)) ∧
    ∀ job ∈ cronhpa.Spec.Jobs, (getNextScheduledTime parser job.Schedule now).2 = none := by
  obtain ⟨hparse, ⟨w2, hloop⟩, hres, -, -⟩ :=
    reconcile_plan parser now req w w1 cronhpa hget hok
  obtain ⟨job, rest, hjr⟩ := List.exists_cons_of_ne_nil hjobs
  obtain ⟨e, he⟩ := planJobs_earliest_some parser now job rest cronhpa.Status none
  rw [← hjr] at he
  have hafter := planJobs_earliest_after parser now hstrict cronhpa.Spec.Jobs cronhpa.Status
    none hparse (by simp) e he
  rw [he] at hloop hres
  have hnn : ¬ (Time.Sub e now < 0) := fun hc => by
    have := (sub_neg_iff e now).mp hc
    omega
  have hdelay : (Reconcile parser now req w).1.1.RequeueAfter = Time.Sub e now := by
    rw [hres, requeueResult_some, if_neg (by omega)]
  refine ⟨⟨_, e, w2, hloop, hafter, hnn, hdelay, ?_, ?_⟩, ?_⟩
  · rw [hdelay]
    unfold Time.Sub minDuration maxDuration
    split
    · omega
    · split <;> omega
  · intro hfit
    rw [hdelay]
    exact sub_exact e now (by omega) hfit
  · intro j hj
    obtain ⟨next, hn⟩ := hparse j hj
    simp only [getNextScheduledTime, hn]

/-! ## The example schedules keep the evaluator's contract -/

theorem everyMinute_after (t : Int) : t < everyMinute t := by
  unfold everyMinute nsPerMinute
  omega

theorem everyHour_after (t : Int) : t < everyHour t := by
  unfold everyHour nsPerHour
  omega

theorem weekdaysAtNine_after (t : Int) : t < weekdaysAtNine t := by
  unfold weekdaysAtNine
  simp only []
  split
  · next h => simp only [firesOn, decide_eq_true_eq] at h; exact h.2.2
  · split
    · next h => simp only [firesOn, decide_eq_true_eq] at h; exact h.2.2
    · split
      · next h => simp only [firesOn, decide_eq_true_eq] at h; exact h.2.2
      · unfold nineOn nsPerDay nsPerHour
        omega

theorem exampleParser_strict : StrictlyAfter exampleParser := by
  intro schedule next h t
  unfold exampleParser at h
  split at h
  · cases h; exact everyMinute_after t
  · split at h
    · cases h; exact everyHour_after t
    · split at h
      · cases h; exact weekdaysAtNine_after t
      · cases h

/-- C10, on scenario A: the job fires at Monday 09:00:00 and the earliest next
run time is Tuesday 09:00:00, twenty-four hours later. -/
theorem reconcile_floor_unreachable_witness :
    0 < (Reconcile exampleParser monday0900 exampleKey scenarioA).1.1.RequeueAfter ∧
    (getNextScheduledTime exampleParser "0 9 * * 1-5" monday0900).2 = none :=
  have h := reconcile_floor_unreachable exampleParser monday0900 exampleKey scenarioA
    (scenarioA.emit (.getHpa exampleKey))
    (exampleHpa [⟨"scale-up", "0 9 * * 1-5", 10⟩] ⟨0, none, none⟩) exampleParser_strict rfl
    (by decide) (by decide)
  ⟨h.1.elim (fun _ hc => hc.elim (fun _ hd => hd.elim (fun _ he => he.2.2.2.2.1))),
   h.2 ⟨"scale-up", "0 9 * * 1-5", 10⟩ (by simp [exampleHpa])⟩

/-! ## A second pass at the same instant -/

/-- C2: when the result of every parsed schedule is strictly after its
argument and a pass at `now` fetched the resource and returned no error, then
in any world that stores what that pass left, the resource has the same spec
and a status against which no job of the resource (so none of the jobs that
fired) is due at `now`; a second pass at the same `now` in that world,
whatever calls fail, makes no call to the deployment store, announces no
actuation and leaves the deployments alone. -/
theorem reconcile_idempotent (parser : Parser) (now : Int) (req : NamespacedName)
    (w w1 wB : World) (cronhpa : Hpa) (hstrict : StrictlyAfter parser)
    (hget : w.getHpa req = (.ok cronhpa, w1))
    (hok : (Reconcile parser now req w).1.2 = none)
    (hstore : wB.hpas = (Reconcile parser now req w).2.hpas) :
    (∃ updated, findHpa wB.hpas req = some updated ∧ updated.Spec = cronhpa.Spec ∧
      ∀ job ∈ cronhpa.Spec.Jobs, now < nextScheduled parser updated.Status job) ∧
    (Reconcile parser now req wB).2.deployments = wB.deployments ∧
    ∃ new, (Reconcile parser now req wB).2.events = wB.events ++ new ∧
      actuations new = [] ∧ ∀ e ∈ new, e.isDeploymentCall = false := by
  obtain ⟨hparse, -, -, hstored, -⟩ := reconcile_plan parser now req w w1 cronhpa hget hok
  have hsettled := planJobs_settled parser now hstrict cronhpa.Spec.Jobs cronhpa.Status none
    hparse
  rw [← hstore] at hstored
  have hnotdue : ∀ job ∈ cronhpa.Spec.Jobs,
      now < nextScheduled parser
        (planJobs parser now cronhpa.Spec.Jobs cronhpa.Status none).1 job := by
    intro job hj
    have := hsettled job hj
    simp only [isDue, decide_eq_false_iff_not, not_le] at this
    exact this
  refine ⟨⟨_, hstored, rfl, hnotdue⟩, ?_⟩
  have hg := getHpa_frame wB req
  rcases hgetB : wB.getHpa req with ⟨r, wB1⟩
  rw [hgetB] at hg
  obtain ⟨-, hg2, hg3⟩ := hg
  simp only [] at hg2 hg3
  cases r with
  | error err =>
    have hrec : (Reconcile parser now req wB).2 = wB1 := by
      simp only [Reconcile, hgetB]
      split <;> rfl
    rw [hrec]
    refine ⟨hg2, [.getHpa req], hg3, rfl, ?_⟩
    intro e he
    simp only [List.mem_singleton] at he
    subst he; rfl
  | ok fetched =>
    have hf := getHpa_ok wB wB1 req fetched hgetB
    rw [hstored] at hf
    simp only [Option.some.injEq] at hf
    obtain ⟨infos, r, wB3, hinfos, hupd, hworld, -⟩ :=
      reconcile_idle parser now req wB wB1 fetched hgetB (by
        intro job hj
        rw [← hf] at hj ⊢
        obtain ⟨next, hn⟩ := hparse job hj
        refine ⟨next, hn, ?_⟩
        have := hnotdue job hj
        simp only [nextScheduled, getNextScheduledTime, hn] at this
        exact this)
    have hu := updateStatus_frame { wB1 with events := wB1.events ++ infos } fetched
    rw [hupd] at hu
    simp only [] at hu
    obtain ⟨hquiet1, hquiet2⟩ := idle_events_quiet req infos fetched hinfos
    rw [hworld]
    refine ⟨by rw [hu.1, hg2], _, ?_, hquiet1, hquiet2⟩
    rw [hu.2, hg3]; simp only [List.append_assoc]

/-- C2, on scenario A: the job fires in a first pass at Monday 09:00:00; a
second pass at the same instant over what the first one left leaves the
deployment at ten replicas, and the only actuation in the events of both
passes is that of the first. -/
theorem reconcile_idempotent_witness :
    (Reconcile exampleParser monday0900 exampleKey
      (Reconcile exampleParser monday0900 exampleKey scenarioA).2).2.deployments =
        [⟨"default", "web", some 10⟩] ∧
    actuations (Reconcile exampleParser monday0900 exampleKey
      (Reconcile exampleParser monday0900 exampleKey scenarioA).2).2.events = [("web", 10)] :=
  have h := reconcile_idempotent exampleParser monday0900 exampleKey scenarioA
    (scenarioA.emit (.getHpa exampleKey))
    (Reconcile exampleParser monday0900 exampleKey scenarioA).2
    (exampleHpa [⟨"scale-up", "0 9 * * 1-5", 10⟩] ⟨0, none, none⟩) exampleParser_strict rfl
    (by decide) rfl
  ⟨h.2.1.trans (by decide), by
    obtain ⟨new, hev, hact, -⟩ := h.2.2
    rw [hev, actuations_append, hact]
    decide⟩

end CronHpa
